import Mathlib

/-!
Verification of the janalysis medallion-architecture data lakehouse.

This development shallowly embeds the core components of the repository:

* configuration inheritance resolution (`jqsys/core/utils/config.py`),
* the prefix-wrapping blob backend (`jqsys/core/storage/backends/prefixed_backend.py`),
* the Silver normalization/validation layer (`jqsys/data/layers/silver.py`),
* the Gold pivot-and-merge layer (`jqsys/data/layers/gold.py`),
* stock code resolution (`jqsys/fin/stock.py`),

and proves (or refutes) the testable properties stated in the specification.
Python dicts are modelled as association lists with pairwise-distinct keys,
DataFrames as lists of typed rows, blob stores as functions from key strings
to optional file contents, and float columns as rational numbers.
-/

namespace Janalysis

/-! ## Configuration inheritance (`resolve_config_inheritance`) -/

/-- A single configuration entry: a Python dict, modelled as an association
list from string keys to string values (insertion ordered, unique keys). -/
abbrev Config := List (String × String)

/-- The whole configuration mapping `name -> entry`. -/
abbrev ConfigDict := List (String × Config)

/-- The inheritance marker key. -/
def inheritsKey : String := "__inherits__"

/-- Errors raised during inheritance resolution.  `ConfigError` in the source
is a single exception class; we distinguish the two raise sites.  `fuelOut`
is an artifact of the embedding (the Python recursion is bounded by the
visited set); it is proved unreachable below. -/
inductive ConfigErr where
  | circular (name : String)
  | missingParent (name parent : String)
  | fuelOut
  deriving DecidableEq, Repr

/-- Python `d[k]` lookup returning `None` when absent (`k in d` test). -/
def dictGet (d : List (String × String)) (k : String) : Option String :=
  match d.find? (fun p => p.1 == k) with
  | some p => some p.2
  | none => none

/-- Python `d[k] = v`: overwrite the binding if present, else append. -/
def dictSet (d : List (String × String)) (k v : String) : List (String × String) :=
  if d.any (fun p => p.1 == k) then
    d.map (fun p => if p.1 == k then (k, v) else p)
  else
    d ++ [(k, v)]

/-- Lookup of a named entry in a configuration dictionary (or in the memo
table of resolved entries). -/
def lookupCfg (d : List (String × Config)) (n : String) : Option Config :=
  match d.find? (fun p => p.1 == n) with
  | some p => some p.2
  | none => none

/-- `resolved = resolved_parent.copy(); for k, v in config.items(): if k != "__inherits__": resolved[k] = v`. -/
def mergeConfigs (parent child : Config) : Config :=
  child.foldl (fun acc p => if p.1 == inheritsKey then acc else dictSet acc p.1 p.2) parent

/-- `_resolve_single(name, config, visited)` from
`resolve_config_inheritance`, with the memo table threaded explicitly and a
fuel parameter standing in for the (terminating) Python recursion. -/
def resolveSingle (cfg : ConfigDict) : Nat → String → Config → List String →
    List (String × Config) → Except ConfigErr (Config × List (String × Config))
  | 0, _, _, _, _ => .error .fuelOut
  | fuel + 1, name, config, visited, resolved =>
    if name ∈ visited then
      .error (.circular name)
    else
      match lookupCfg resolved name with
      | some r => .ok (r, resolved)
      | none =>
        match dictGet config inheritsKey with
        | none => .ok (config, resolved ++ [(name, config)])
        | some parentName =>
          match lookupCfg cfg parentName with
          | none => .error (.missingParent name parentName)
          | some parentConfig =>
            match resolveSingle cfg fuel parentName parentConfig (name :: visited) resolved with
            | .error e => .error e
            | .ok (rp, resolved') =>
              let r := mergeConfigs rp config
              .ok (r, resolved' ++ [(name, r)])

/-- The `for name, config in config_dict.items()` loop at the end of
`resolve_config_inheritance`. -/
def resolveLoop (cfg : ConfigDict) : ConfigDict → List (String × Config) →
    Except ConfigErr (List (String × Config))
  | [], resolved => .ok resolved
  | (name, config) :: rest, resolved =>
    if (lookupCfg resolved name).isSome then
      resolveLoop cfg rest resolved
    else
      match resolveSingle cfg (cfg.length + 1) name config [] resolved with
      | .error e => .error e
      | .ok (_, resolved') => resolveLoop cfg rest resolved'

/-- `resolve_config_inheritance(config_dict)`. -/
def resolveConfigInheritance (cfg : ConfigDict) : Except ConfigErr (List (String × Config)) :=
  resolveLoop cfg cfg []

/-- Following the `__inherits__` marker of a named entry. -/
def inheritsOf (cfg : ConfigDict) (n : String) : Option String :=
  match lookupCfg cfg n with
  | some c => dictGet c inheritsKey
  | none => none

/-- Iterating the inheritance chain `k` steps. -/
def iterInherits (cfg : ConfigDict) : Nat → String → Option String
  | 0, n => some n
  | k + 1, n =>
    match inheritsOf cfg n with
    | some p => iterInherits cfg k p
    | none => none

/-- A name lying on an inheritance cycle. -/
def OnCycle (cfg : ConfigDict) (n : String) : Prop :=
  ∃ k : Nat, iterInherits cfg (k + 1) n = some n

/-! ### Dictionary lemmas -/

theorem dictGet_append (a b : List (String × String)) (k : String) :
    dictGet (a ++ b) k = (dictGet a k).orElse (fun _ => dictGet b k) := by
  unfold dictGet
  rw [List.find?_append]
  cases a.find? (fun p => p.1 == k) <;> simp [Option.orElse]

theorem dictGet_eq_none_of_not_mem {d : List (String × String)} {k : String}
    (h : k ∉ d.map Prod.fst) : dictGet d k = none := by
  unfold dictGet
  induction d with
  | nil => rfl
  | cons p rest ih =>
    simp only [List.map_cons, List.mem_cons] at h
    push_neg at h
    rw [List.find?_cons]
    have : (p.1 == k) = false := by
      simp [BEq.beq]
      exact fun hh => h.1 hh.symm
    rw [this]
    exact ih h.2

theorem dictGet_isSome_mem_keys {d : List (String × String)} {k : String} {v : String}
    (h : dictGet d k = some v) : k ∈ d.map Prod.fst := by
  by_contra hk
  rw [dictGet_eq_none_of_not_mem hk] at h
  exact Option.noConfusion h

theorem dictGet_cons (p : String × String) (d : List (String × String)) (k : String) :
    dictGet (p :: d) k = if p.1 = k then some p.2 else dictGet d k := by
  unfold dictGet
  rw [List.find?_cons]
  by_cases hp : p.1 = k
  · have hb : (p.1 == k) = true := by simp [hp]
    rw [hb, if_pos hp]
  · have hb : (p.1 == k) = false := by simp [hp]
    rw [hb, if_neg hp]

theorem dictGet_map_set (d : List (String × String)) (k v k' : String) :
    dictGet (d.map (fun p => if p.1 == k then (k, v) else p)) k' =
      if k' = k then (if d.any (fun p => p.1 == k) then some v else none)
      else dictGet d k' := by
  induction d with
  | nil => by_cases hk' : k' = k <;> simp [hk', dictGet]
  | cons p rest ih =>
    simp only [List.map_cons, List.any_cons]
    by_cases hp : p.1 = k
    · have hb : (p.1 == k) = true := by simp [hp]
      simp only [hb, Bool.true_or, if_true, if_pos]
      rw [dictGet_cons, dictGet_cons]
      by_cases hk' : k' = k
      · rw [if_pos hk'.symm, if_pos hk']
      · rw [if_neg (Ne.symm hk'), ih, if_neg hk', if_neg hk', if_neg (hk' ∘ (hp ▸ Eq.symm))]
    · have hb : (p.1 == k) = false := by simp [hp]
      simp only [hb, Bool.false_or, Bool.false_eq_true, if_false]
      rw [dictGet_cons, dictGet_cons]
      by_cases hpk' : p.1 = k'
      · have hne : ¬ k' = k := fun h => hp (h ▸ hpk')
        rw [if_pos hpk', if_pos hpk', if_neg hne]
      · rw [if_neg hpk', if_neg hpk', ih]

theorem dictGet_dictSet (d : List (String × String)) (k v k' : String) :
    dictGet (dictSet d k v) k' = if k' = k then some v else dictGet d k' := by
  unfold dictSet
  by_cases hany : d.any (fun p => p.1 == k)
  · simp only [hany, if_true]
    rw [dictGet_map_set]
    by_cases hk' : k' = k <;> simp [hk', hany]
  · rw [if_neg hany]
    rw [dictGet_append]
    have hknone : dictGet d k = none := by
      apply dictGet_eq_none_of_not_mem
      intro hmem
      apply hany
      rw [List.any_eq_true]
      rcases List.mem_map.mp hmem with ⟨p, hp, hpk⟩
      exact ⟨p, hp, by simp [hpk]⟩
    by_cases hk' : k' = k
    · rw [if_pos hk', hk', hknone]
      simp [dictGet_cons, dictGet]
    · rw [if_neg hk']
      cases hd : dictGet d k' with
      | some w => simp [hd, Option.orElse]
      | none =>
        simp only [hd, Option.orElse]
        rw [dictGet_cons]
        simp [Ne.symm hk', dictGet]

theorem lookupCfg_cons (p : String × Config) (d : List (String × Config)) (n : String) :
    lookupCfg (p :: d) n = if p.1 = n then some p.2 else lookupCfg d n := by
  unfold lookupCfg
  rw [List.find?_cons]
  by_cases hp : p.1 = n
  · have hb : (p.1 == n) = true := by simp [hp]
    rw [hb, if_pos hp]
  · have hb : (p.1 == n) = false := by simp [hp]
    rw [hb, if_neg hp]

theorem lookupCfg_append (a b : List (String × Config)) (n : String) :
    lookupCfg (a ++ b) n = (lookupCfg a n).orElse (fun _ => lookupCfg b n) := by
  unfold lookupCfg
  rw [List.find?_append]
  cases a.find? (fun p => p.1 == n) <;> simp [Option.orElse]

theorem lookupCfg_mem {d : List (String × Config)} {n : String} {c : Config}
    (h : lookupCfg d n = some c) : (n, c) ∈ d := by
  unfold lookupCfg at h
  cases hf : d.find? (fun p => p.1 == n) with
  | none => rw [hf] at h; exact Option.noConfusion h
  | some p =>
    rw [hf] at h
    have hkey : p.1 = n := by
      have := List.find?_some hf
      simpa using this
    have hmem := List.mem_of_find?_eq_some hf
    have hc : p.2 = c := by simpa using h
    have : p = (n, c) := Prod.ext hkey hc
    rwa [this] at hmem

theorem lookupCfg_eq_none_of_not_mem {d : List (String × Config)} {n : String}
    (h : n ∉ d.map Prod.fst) : lookupCfg d n = none := by
  unfold lookupCfg
  induction d with
  | nil => rfl
  | cons p rest ih =>
    simp only [List.map_cons, List.mem_cons] at h
    push_neg at h
    rw [List.find?_cons]
    have : (p.1 == n) = false := by
      simp only [beq_eq_false_iff_ne, ne_eq]
      exact fun hh => h.1 hh.symm
    rw [this]
    exact ih h.2

theorem lookupCfg_isSome_mem_keys {d : List (String × Config)} {n : String} {c : Config}
    (h : lookupCfg d n = some c) : n ∈ d.map Prod.fst := by
  by_contra hk
  rw [lookupCfg_eq_none_of_not_mem hk] at h
  exact Option.noConfusion h

theorem mem_lookupCfg {d : List (String × Config)} {n : String} {c : Config}
    (hnd : (d.map Prod.fst).Nodup) (h : (n, c) ∈ d) : lookupCfg d n = some c := by
  induction d with
  | nil => exact absurd h (List.not_mem_nil _)
  | cons p rest ih =>
    rw [lookupCfg_cons]
    rcases List.mem_cons.mp h with heq | hmem
    · rw [if_pos (by rw [← heq])]
      rw [← heq]
    · have hne : p.1 ≠ n := by
        intro hpn
        have : n ∈ rest.map Prod.fst := List.mem_map.mpr ⟨(n, c), hmem, rfl⟩
        rw [List.map_cons] at hnd
        exact (List.nodup_cons.mp hnd).1 (hpn ▸ this)
      rw [if_neg hne]
      exact ih (List.nodup_cons.mp (by rwa [List.map_cons] at hnd)).2 hmem

/-! ### `mergeConfigs` gives parent-default / child-override semantics -/

theorem mergeConfigs_nil (parent : Config) : mergeConfigs parent [] = parent := rfl

theorem mergeConfigs_cons (parent : Config) (p : String × String) (rest : Config) :
    mergeConfigs parent (p :: rest) =
      mergeConfigs (if p.1 == inheritsKey then parent else dictSet parent p.1 p.2) rest := by
  unfold mergeConfigs
  rw [List.foldl_cons]

/-- The resolved entry never retains the inheritance marker introduced by
merging: merging skips the `__inherits__` key. -/
theorem mergeConfigs_get_inheritsKey (child : Config) : ∀ parent : Config,
    dictGet (mergeConfigs parent child) inheritsKey = dictGet parent inheritsKey := by
  induction child with
  | nil => intro parent; rfl
  | cons p rest ih =>
    intro parent
    rw [mergeConfigs_cons]
    by_cases hp : p.1 = inheritsKey
    · rw [if_pos (by simp [hp])]
      exact ih parent
    · rw [if_neg (by simp [hp])]
      rw [ih, dictGet_dictSet, if_neg (fun h => hp h.symm)]

/-- Child keys win, parent keys are the default (for non-marker keys). -/
theorem mergeConfigs_get (child : Config) : ∀ (parent : Config) (k : String),
    k ≠ inheritsKey → (child.map Prod.fst).Nodup →
    dictGet (mergeConfigs parent child) k =
      (dictGet child k).orElse (fun _ => dictGet parent k) := by
  induction child with
  | nil =>
    intro parent k _ _
    simp [mergeConfigs_nil, dictGet, Option.orElse]
  | cons p rest ih =>
    intro parent k hk hnd
    rw [List.map_cons, List.nodup_cons] at hnd
    rw [mergeConfigs_cons, dictGet_cons]
    by_cases hp : p.1 = inheritsKey
    · rw [if_pos (by simp [hp]), ih parent k hk hnd.2]
      rw [if_neg (show ¬ p.1 = k from fun h => hk (by rw [← h]; exact hp))]
    · rw [if_neg (by simp [hp]), ih _ k hk hnd.2, dictGet_dictSet]
      by_cases hpk : p.1 = k
      · rw [if_pos hpk, if_pos hpk.symm]
        have hrest : dictGet rest k = none := by
          apply dictGet_eq_none_of_not_mem
          rw [← hpk]
          exact hnd.1
        rw [hrest]
        simp [Option.orElse]
      · rw [if_neg hpk, if_neg (fun h => hpk h.symm)]

/-- Every key present in the parent stays present after the merge. -/
theorem mergeConfigs_isSome (child : Config) : ∀ (parent : Config) (k : String),
    (dictGet parent k).isSome → (dictGet (mergeConfigs parent child) k).isSome := by
  induction child with
  | nil => intro parent k h; exact h
  | cons p rest ih =>
    intro parent k h
    rw [mergeConfigs_cons]
    by_cases hp : (p.1 == inheritsKey) = true
    · rw [if_pos hp]
      exact ih parent k h
    · rw [if_neg hp]
      apply ih
      rw [dictGet_dictSet]
      by_cases hkp : k = p.1
      · rw [if_pos hkp]; rfl
      · rw [if_neg hkp]; exact h

/-! ### Memo-table invariants of `_resolve_single` -/

theorem lookupCfg_append_some {a : List (String × Config)} (b : List (String × Config))
    {n : String} {c : Config} (h : lookupCfg a n = some c) :
    lookupCfg (a ++ b) n = some c := by
  rw [lookupCfg_append, h]
  rfl

/-- Semantic characterisation of one memoized entry: it is the raw entry when
it has no marker, and the merge of the memoized parent with the raw entry
otherwise. -/
def GoodEntry (cfg : ConfigDict) (memo : List (String × Config)) (n : String) (r : Config) :
    Prop :=
  ∃ c, lookupCfg cfg n = some c ∧
    ((dictGet c inheritsKey = none ∧ r = c) ∨
      ∃ p rp, dictGet c inheritsKey = some p ∧ lookupCfg memo p = some rp ∧
        r = mergeConfigs rp c)

/-- Invariant of the `resolved_configs` memo table. -/
def MemoInv (cfg : ConfigDict) (memo : List (String × Config)) : Prop :=
  (memo.map Prod.fst).Nodup ∧
    ∀ n r, (n, r) ∈ memo → GoodEntry cfg memo n r ∧ dictGet r inheritsKey = none

theorem GoodEntry.append {cfg : ConfigDict} {memo : List (String × Config)} {n : String}
    {r : Config} (h : GoodEntry cfg memo n r) (x : List (String × Config)) :
    GoodEntry cfg (memo ++ x) n r := by
  obtain ⟨c, hc, hcase⟩ := h
  refine ⟨c, hc, ?_⟩
  rcases hcase with hbase | ⟨p, rp, hm, hl, hr⟩
  · exact Or.inl hbase
  · exact Or.inr ⟨p, rp, hm, lookupCfg_append_some x hl, hr⟩

theorem memoInv_extend {cfg : ConfigDict} {memo : List (String × Config)} {n₀ : String}
    {r₀ : Config} (hinv : MemoInv cfg memo) (hfresh : lookupCfg memo n₀ = none)
    (hgood : GoodEntry cfg (memo ++ [(n₀, r₀)]) n₀ r₀)
    (hmk : dictGet r₀ inheritsKey = none) :
    MemoInv cfg (memo ++ [(n₀, r₀)]) := by
  obtain ⟨hnd, hall⟩ := hinv
  constructor
  · rw [List.map_append]
    rw [List.nodup_append]
    refine ⟨hnd, List.nodup_singleton _, ?_⟩
    intro a ha hb
    simp only [List.map_cons, List.map_nil, List.mem_singleton] at hb
    subst hb
    rcases List.mem_map.mp ha with ⟨⟨nn, rr⟩, hmem, hneq⟩
    simp only at hneq
    subst hneq
    have := mem_lookupCfg hnd hmem
    rw [hfresh] at this
    exact Option.noConfusion this
  · intro n r hmem
    rcases List.mem_append.mp hmem with hold | hnew
    · obtain ⟨hg, hk⟩ := hall n r hold
      exact ⟨hg.append _, hk⟩
    · simp only [List.mem_singleton] at hnew
      have h1 : n = n₀ := congrArg Prod.fst hnew
      have h2 : r = r₀ := congrArg Prod.snd hnew
      subst h1; subst h2
      exact ⟨hgood, hmk⟩

/-- `_resolve_single` only appends to the memo table: existing entries keep
their bindings. -/
theorem resolveSingle_preserves {cfg : ConfigDict} :
    ∀ (fuel : Nat) {n : String} {c : Config} {vis : List String}
      {res : List (String × Config)} {r : Config} {res₂ : List (String × Config)},
      resolveSingle cfg fuel n c vis res = .ok (r, res₂) →
      ∀ v rv, lookupCfg res v = some rv → lookupCfg res₂ v = some rv := by
  intro fuel
  induction fuel with
  | zero =>
    intro n c vis res r res₂ h
    exact absurd h (by simp [resolveSingle])
  | succ fuel ih =>
    intro n c vis res r res₂ h v rv hv
    rw [resolveSingle] at h
    split at h
    · exact absurd h (by simp)
    · split at h
      · rw [← (Prod.mk.inj (Except.ok.inj h)).2]
        exact hv
      · split at h
        · rw [← (Prod.mk.inj (Except.ok.inj h)).2]
          exact lookupCfg_append_some _ hv
        · split at h
          · exact absurd h (by simp)
          · split at h
            · exact absurd h (by simp)
            · rename_i rp' hrec
              rw [← (Prod.mk.inj (Except.ok.inj h)).2]
              exact lookupCfg_append_some _ (ih hrec v rv hv)

/-- Names on the visited path that are absent from the memo table stay absent:
a successful recursive resolution never memoizes a name it was called under. -/
theorem resolveSingle_vis_fresh {cfg : ConfigDict} :
    ∀ (fuel : Nat) {n : String} {c : Config} {vis : List String}
      {res : List (String × Config)} {r : Config} {res₂ : List (String × Config)},
      resolveSingle cfg fuel n c vis res = .ok (r, res₂) →
      ∀ v, v ∈ vis → lookupCfg res v = none → lookupCfg res₂ v = none := by
  intro fuel
  induction fuel with
  | zero =>
    intro n c vis res r res₂ h
    exact absurd h (by simp [resolveSingle])
  | succ fuel ih =>
    intro n c vis res r res₂ h v hvis hv
    rw [resolveSingle] at h
    split at h
    · exact absurd h (by simp)
    · rename_i hnvis
      split at h
      · rw [← (Prod.mk.inj (Except.ok.inj h)).2]
        exact hv
      · split at h
        · rw [← (Prod.mk.inj (Except.ok.inj h)).2]
          rw [lookupCfg_append, hv]
          have hvn : v ≠ n := fun hh => hnvis (hh ▸ hvis)
          simp [Option.orElse, lookupCfg_cons, lookupCfg, Ne.symm hvn]
        · split at h
          · exact absurd h (by simp)
          · split at h
            · exact absurd h (by simp)
            · rename_i hrec
              rw [← (Prod.mk.inj (Except.ok.inj h)).2]
              have hres' := ih hrec v (List.mem_cons_of_mem _ hvis) hv
              rw [lookupCfg_append, hres']
              have hvn : v ≠ n := fun hh => hnvis (hh ▸ hvis)
              simp [Option.orElse, lookupCfg_cons, lookupCfg, Ne.symm hvn]

/-- Main invariant preservation: a successful `_resolve_single` call keeps the
memo-table invariant and memoizes the requested name with the returned value. -/
theorem resolveSingle_main {cfg : ConfigDict} :
    ∀ (fuel : Nat) {n : String} {c : Config} {vis : List String}
      {res : List (String × Config)} {r : Config} {res₂ : List (String × Config)},
      resolveSingle cfg fuel n c vis res = .ok (r, res₂) →
      lookupCfg cfg n = some c →
      MemoInv cfg res →
      MemoInv cfg res₂ ∧ lookupCfg res₂ n = some r := by
  intro fuel
  induction fuel with
  | zero =>
    intro n c vis res r res₂ h
    exact absurd h (by simp [resolveSingle])
  | succ fuel ih =>
    intro n c vis res r res₂ h hn hinv
    rw [resolveSingle] at h
    split at h
    · exact absurd h (by simp)
    · rename_i hnvis
      split at h
      · rename_i r' hmemo
        obtain ⟨h1, h2⟩ := Prod.mk.inj (Except.ok.inj h)
        subst h1
        rw [← h2]
        exact ⟨hinv, hmemo⟩
      · rename_i hmiss
        split at h
        · rename_i hnomark
          obtain ⟨h1, h2⟩ := Prod.mk.inj (Except.ok.inj h)
          subst h1
          rw [← h2]
          refine ⟨memoInv_extend hinv hmiss ⟨c, hn, Or.inl ⟨hnomark, rfl⟩⟩ hnomark, ?_⟩
          rw [lookupCfg_append, hmiss]
          simp [Option.orElse, lookupCfg_cons]
        · rename_i parentName hmark
          split at h
          · exact absurd h (by simp)
          · rename_i parentConfig hparent
            split at h
            · exact absurd h (by simp)
            · rename_i rp res' hrec
              obtain ⟨h1, h2⟩ := Prod.mk.inj (Except.ok.inj h)
              obtain ⟨hinv', hplook⟩ := ih hrec hparent hinv
              have hmiss' : lookupCfg res' n = none :=
                resolveSingle_vis_fresh fuel hrec n (List.mem_cons_self n vis) hmiss
              have hparentKeep : lookupCfg (res' ++ [(n, mergeConfigs rp c)]) parentName =
                  some rp := lookupCfg_append_some _ hplook
              have hmarkerFree : dictGet (mergeConfigs rp c) inheritsKey = none := by
                rw [mergeConfigs_get_inheritsKey]
                exact (hinv'.2 parentName rp (lookupCfg_mem hplook)).2
              have hgood : GoodEntry cfg (res' ++ [(n, mergeConfigs rp c)]) n
                  (mergeConfigs rp c) :=
                ⟨c, hn, Or.inr ⟨parentName, rp, hmark, hparentKeep, rfl⟩⟩
              subst h1
              rw [← h2]
              refine ⟨memoInv_extend hinv' hmiss' hgood hmarkerFree, ?_⟩
              rw [lookupCfg_append, hmiss']
              simp [Option.orElse, lookupCfg_cons]

theorem filter_cons_vis_lt {keys : List String} {vis : List String} {n : String}
    (hn : n ∈ keys) (hnvis : n ∉ vis) :
    (keys.filter (fun k => decide (k ∉ (n :: vis)))).length <
      (keys.filter (fun k => decide (k ∉ vis))).length := by
  have hsplit : keys.filter (fun k => decide (k ∉ (n :: vis))) =
      (keys.filter (fun k => decide (k ∉ vis))).filter (fun k => decide (k ≠ n)) := by
    rw [List.filter_filter]
    apply List.filter_congr
    intro k _
    by_cases h1 : k = n
    · subst h1
      simp [List.mem_cons]
    · by_cases h2 : k ∈ vis <;> simp [List.mem_cons, h1, h2]
  rw [hsplit]
  rw [List.length_filter_lt_length_iff_exists]
  refine ⟨n, ?_, by simp⟩
  rw [List.mem_filter]
  exact ⟨hn, by simp [hnvis]⟩

/-- The fuel supplied by `resolveConfigInheritance` is always sufficient: the
recursion depth is bounded by the number of unvisited configuration names. -/
theorem resolveSingle_no_fuelOut {cfg : ConfigDict} :
    ∀ (fuel : Nat) (n : String) (c : Config) (vis : List String)
      (res : List (String × Config)),
      n ∈ cfg.map Prod.fst →
      ((cfg.map Prod.fst).filter (fun k => decide (k ∉ vis))).length < fuel →
      resolveSingle cfg fuel n c vis res ≠ .error .fuelOut := by
  intro fuel
  induction fuel with
  | zero =>
    intro n c vis res _ hfuel
    exact absurd hfuel (by omega)
  | succ fuel ih =>
    intro n c vis res hn hfuel
    rw [resolveSingle]
    split
    · simp
    · rename_i hnvis
      split
      · simp
      · split
        · simp
        · rename_i parentName hmark
          split
          · simp
          · rename_i parentConfig hparent
            have hpmem : parentName ∈ cfg.map Prod.fst := by
              rcases hp : lookupCfg cfg parentName with _ | pc
              · rw [hp] at hparent; exact Option.noConfusion hparent
              · exact lookupCfg_isSome_mem_keys hp
            have hlt := @filter_cons_vis_lt _ vis _ hn hnvis
            have hfuel' :
                ((cfg.map Prod.fst).filter (fun k => decide (k ∉ (n :: vis)))).length < fuel := by
              omega
            have hrec := ih parentName parentConfig (n :: vis) res hpmem hfuel'
            split
            · rename_i e heq
              intro hcontra
              apply hrec
              rw [heq]
              have : e = ConfigErr.fuelOut := by
                have := Except.error.inj hcontra
                exact this
              rw [this]
            · simp

theorem resolveLoop_preserves {cfg : ConfigDict} :
    ∀ (entries : ConfigDict) (res m : List (String × Config)),
      resolveLoop cfg entries res = .ok m →
      ∀ v rv, lookupCfg res v = some rv → lookupCfg m v = some rv := by
  intro entries
  induction entries with
  | nil =>
    intro res m h v rv hv
    rw [resolveLoop] at h
    rw [← Except.ok.inj h]
    exact hv
  | cons e rest ih =>
    intro res m h v rv hv
    obtain ⟨name, config⟩ := e
    rw [resolveLoop] at h
    split at h
    · exact ih res m h v rv hv
    · split at h
      · exact absurd h (by simp)
      · rename_i r' res' hsingle
        exact ih res' m h v rv (resolveSingle_preserves _ hsingle v rv hv)

theorem resolveLoop_no_fuelOut {cfg : ConfigDict} :
    ∀ (entries : ConfigDict) (res : List (String × Config)),
      (∀ p ∈ entries, p.1 ∈ cfg.map Prod.fst) →
      resolveLoop cfg entries res ≠ .error .fuelOut := by
  intro entries
  induction entries with
  | nil =>
    intro res _
    rw [resolveLoop]
    simp
  | cons e rest ih =>
    intro res hmem
    obtain ⟨name, config⟩ := e
    rw [resolveLoop]
    split
    · exact ih res (fun p hp => hmem p (List.mem_cons_of_mem _ hp))
    · have hnm : name ∈ cfg.map Prod.fst := hmem (name, config) (List.mem_cons_self _ _)
      have hfuel : ((cfg.map Prod.fst).filter (fun k => decide (k ∉ ([] : List String)))).length <
          cfg.length + 1 := by
        have : (cfg.map Prod.fst).filter (fun k => decide (k ∉ ([] : List String))) =
            cfg.map Prod.fst := by
          apply List.filter_eq_self.mpr
          intro a _
          simp
        rw [this, List.length_map]
        omega
      have hns := @resolveSingle_no_fuelOut cfg (cfg.length + 1) name config [] res hnm hfuel
      split
      · rename_i e heq
        intro hcontra
        apply hns
        rw [heq]
        rw [Except.error.inj hcontra]
      · rename_i r' res' heq
        exact ih res' (fun p hp => hmem p (List.mem_cons_of_mem _ hp))

/-- `resolve_config_inheritance` never fails from fuel exhaustion: any error it
returns is a genuine `ConfigError` (circular inheritance or missing parent). -/
theorem resolveConfigInheritance_no_fuelOut (cfg : ConfigDict) :
    resolveConfigInheritance cfg ≠ .error .fuelOut := by
  unfold resolveConfigInheritance
  apply resolveLoop_no_fuelOut
  intro p hp
  exact List.mem_map.mpr ⟨p, hp, rfl⟩

theorem resolveLoop_main {cfg : ConfigDict} :
    ∀ (entries : ConfigDict) (res m : List (String × Config)),
      (∀ n c, (n, c) ∈ entries → lookupCfg cfg n = some c) →
      MemoInv cfg res →
      resolveLoop cfg entries res = .ok m →
      MemoInv cfg m ∧ ∀ n c, (n, c) ∈ entries → (lookupCfg m n).isSome := by
  intro entries
  induction entries with
  | nil =>
    intro res m _ hinv h
    rw [resolveLoop] at h
    rw [← Except.ok.inj h]
    exact ⟨hinv, fun n c hc => absurd hc (List.not_mem_nil _)⟩
  | cons e rest ih =>
    intro res m hentry hinv h
    obtain ⟨name, config⟩ := e
    rw [resolveLoop] at h
    split at h
    · rename_i hcached
      obtain ⟨hm, hrest⟩ := ih res m
        (fun n c hc => hentry n c (List.mem_cons_of_mem _ hc)) hinv h
      refine ⟨hm, fun n c hc => ?_⟩
      rcases List.mem_cons.mp hc with heq | hmem
      · have h1 : n = name := congrArg Prod.fst heq
        subst h1
        rcases hcache : lookupCfg res n with _ | rv
        · rw [hcache] at hcached; exact absurd hcached (by simp)
        · rw [resolveLoop_preserves rest res m h n rv hcache]
          rfl
      · exact hrest n c hmem
    · split at h
      · exact absurd h (by simp)
      · rename_i r' res' hsingle
        have hlook : lookupCfg cfg name = some config :=
          hentry name config (List.mem_cons_self _ _)
        obtain ⟨hinv', hname⟩ := resolveSingle_main _ hsingle hlook hinv
        obtain ⟨hm, hrest⟩ := ih res' m
          (fun n c hc => hentry n c (List.mem_cons_of_mem _ hc)) hinv' h
        refine ⟨hm, fun n c hc => ?_⟩
        rcases List.mem_cons.mp hc with heq | hmem
        · have h1 : n = name := congrArg Prod.fst heq
          subst h1
          rw [resolveLoop_preserves rest res' m h n r' hname]
          rfl
        · exact hrest n c hmem

/-! ### Claim C4: inheritance soundness -/

/-- C4.  Configuration inheritance soundness: for every config map (with the
unique keys inherent to Python dicts) whose resolution succeeds, an entry
carrying the `__inherits__` marker resolves to the resolved parent overridden
by the child's own keys (child keys win), the marker never appears in any
resolved entry, every key of the resolved parent remains present in the
resolved child, and entries without the marker resolve to a copy of
themselves. -/
theorem config_inheritance_soundness (cfg : ConfigDict) (m : List (String × Config))
    (hnd : (cfg.map Prod.fst).Nodup)
    (hok : resolveConfigInheritance cfg = .ok m) :
    (∀ n r, (n, r) ∈ m → dictGet r inheritsKey = none) ∧
    (∀ n c, (n, c) ∈ cfg → (c.map Prod.fst).Nodup →
      ∃ rc, lookupCfg m n = some rc ∧
        (dictGet c inheritsKey = none → rc = c) ∧
        (∀ p, dictGet c inheritsKey = some p →
          ∃ rp, lookupCfg m p = some rp ∧
            (∀ k, k ≠ inheritsKey →
              dictGet rc k = (dictGet c k).orElse (fun _ => dictGet rp k)) ∧
            (∀ k, (dictGet rp k).isSome → (dictGet rc k).isSome))) := by
  have hloop := @resolveLoop_main cfg cfg [] m
    (fun n c hc => mem_lookupCfg hnd hc)
    ⟨List.nodup_nil, fun n r hr => absurd hr (List.not_mem_nil _)⟩
    hok
  obtain ⟨hminv, hall⟩ := hloop
  refine ⟨fun n r hr => (hminv.2 n r hr).2, ?_⟩
  intro n c hc hcnd
  have hsome := hall n c hc
  rcases hrc : lookupCfg m n with _ | rc
  · rw [hrc] at hsome; exact absurd hsome (by simp)
  · refine ⟨rc, rfl, ?_, ?_⟩
    all_goals
      have hmem := lookupCfg_mem hrc
      have hgood := (hminv.2 n rc hmem).1
      obtain ⟨c', hc'look, hcase⟩ := hgood
      have hceq : c' = c := by
        have := mem_lookupCfg hnd hc
        rw [this] at hc'look
        exact (Option.some.inj hc'look).symm
      subst hceq
    · intro hnone
      rcases hcase with ⟨_, hre⟩ | ⟨p, rp, hmark, _, _⟩
      · exact hre
      · rw [hnone] at hmark; exact Option.noConfusion hmark
    · intro p hp
      rcases hcase with ⟨hnone, _⟩ | ⟨p', rp, hmark, hrp, hre⟩
      · rw [hnone] at hp; exact Option.noConfusion hp
      · have hpeq : p' = p := by
          rw [hp] at hmark
          exact (Option.some.inj hmark).symm
        subst hpeq
        refine ⟨rp, hrp, ?_, ?_⟩
        · intro k hk
          rw [hre]
          exact mergeConfigs_get c' rp k hk hcnd
        · intro k hk
          rw [hre]
          exact mergeConfigs_isSome c' rp k hk

/-- Demo configuration used to witness the soundness theorem (the inheritance
example from the specification). -/
def demoCfg : ConfigDict :=
  [("parent", [("type", "s3"), ("endpoint", "e"), ("bucket", "b"),
               ("opt1", "v1"), ("opt2", "v2")]),
   ("child", [("__inherits__", "parent"), ("opt2", "over")])]

/-- The resolved child entry of `demoCfg`. -/
def demoChildResolved : Config :=
  [("type", "s3"), ("endpoint", "e"), ("bucket", "b"), ("opt1", "v1"), ("opt2", "over")]

/-- The resolution result of `demoCfg`. -/
def demoResolved : List (String × Config) :=
  [("parent", [("type", "s3"), ("endpoint", "e"), ("bucket", "b"),
               ("opt1", "v1"), ("opt2", "v2")]),
   ("child", demoChildResolved)]

theorem config_inheritance_soundness_witness :
    dictGet demoChildResolved inheritsKey = none := by
  have h := config_inheritance_soundness demoCfg demoResolved (by decide) (by rfl)
  exact h.1 "child" demoChildResolved (by decide)

/-! ### Claim C8: inheritance safety (cycles and missing parents) -/

theorem iterInherits_add (cfg : ConfigDict) (a b : Nat) (n : String) :
    iterInherits cfg (a + b) n =
      match iterInherits cfg a n with
      | some q => iterInherits cfg b q
      | none => none := by
  induction a generalizing n with
  | zero => simp [iterInherits]
  | succ a ih =>
    have hrw : a + 1 + b = (a + b) + 1 := by omega
    rw [hrw, iterInherits, iterInherits]
    cases hstep : inheritsOf cfg n with
    | none => rfl
    | some p => exact ih p

theorem inheritsOf_eq {cfg : ConfigDict} {n : String} {c : Config}
    (hn : lookupCfg cfg n = some c) : inheritsOf cfg n = dictGet c inheritsKey := by
  unfold inheritsOf
  rw [hn]

theorem onCycle_inheritsOf {cfg : ConfigDict} {n : String} (h : OnCycle cfg n) :
    ∃ p, inheritsOf cfg n = some p := by
  obtain ⟨k, hk⟩ := h
  rw [iterInherits] at hk
  cases hstep : inheritsOf cfg n with
  | none => rw [hstep] at hk; exact Option.noConfusion hk
  | some p => exact ⟨p, rfl⟩

theorem onCycle_step {cfg : ConfigDict} {n p : String} (h : OnCycle cfg n)
    (hp : inheritsOf cfg n = some p) : OnCycle cfg p := by
  obtain ⟨k, hk⟩ := h
  rw [iterInherits] at hk
  rw [hp] at hk
  have hk' : iterInherits cfg k p = some n := hk
  refine ⟨k, ?_⟩
  rw [iterInherits_add cfg k 1, hk']
  show iterInherits cfg 1 n = some p
  rw [iterInherits]
  rw [hp]
  rfl

/-- Names memoized by a successful resolution never lie on an inheritance
cycle. -/
def CycInv (cfg : ConfigDict) (memo : List (String × Config)) : Prop :=
  ∀ n r, (n, r) ∈ memo → ¬ OnCycle cfg n

theorem resolveSingle_noCycle {cfg : ConfigDict} :
    ∀ (fuel : Nat) {n : String} {c : Config} {vis : List String}
      {res : List (String × Config)} {r : Config} {res₂ : List (String × Config)},
      resolveSingle cfg fuel n c vis res = .ok (r, res₂) →
      lookupCfg cfg n = some c →
      CycInv cfg res →
      CycInv cfg res₂ ∧ ¬ OnCycle cfg n := by
  intro fuel
  induction fuel with
  | zero =>
    intro n c vis res r res₂ h
    exact absurd h (by simp [resolveSingle])
  | succ fuel ih =>
    intro n c vis res r res₂ h hn hinv
    rw [resolveSingle] at h
    split at h
    · exact absurd h (by simp)
    · split at h
      · rename_i r' hmemo
        obtain ⟨h1, h2⟩ := Prod.mk.inj (Except.ok.inj h)
        rw [← h2]
        exact ⟨hinv, hinv n r' (lookupCfg_mem hmemo)⟩
      · split at h
        · rename_i hnomark
          obtain ⟨h1, h2⟩ := Prod.mk.inj (Except.ok.inj h)
          rw [← h2]
          have hnc : ¬ OnCycle cfg n := by
            intro hcyc
            obtain ⟨p, hp⟩ := onCycle_inheritsOf hcyc
            rw [inheritsOf_eq hn, hnomark] at hp
            exact Option.noConfusion hp
          refine ⟨?_, hnc⟩
          intro n' r' hr'
          rcases List.mem_append.mp hr' with hold | hnew
          · exact hinv n' r' hold
          · simp only [List.mem_singleton] at hnew
            have he : n' = n := congrArg Prod.fst hnew
            rw [he]
            exact hnc
        · rename_i parentName hmark
          split at h
          · exact absurd h (by simp)
          · rename_i parentConfig hparent
            split at h
            · exact absurd h (by simp)
            · rename_i rp res' hrec
              obtain ⟨h1, h2⟩ := Prod.mk.inj (Except.ok.inj h)
              obtain ⟨hinv', hpnc⟩ := ih hrec hparent hinv
              have hnc : ¬ OnCycle cfg n := by
                intro hcyc
                apply hpnc
                apply onCycle_step hcyc
                rw [inheritsOf_eq hn, hmark]
              rw [← h2]
              refine ⟨?_, hnc⟩
              intro n' r' hr'
              rcases List.mem_append.mp hr' with hold | hnew
              · exact hinv' n' r' hold
              · simp only [List.mem_singleton] at hnew
                have he : n' = n := congrArg Prod.fst hnew
                rw [he]
                exact hnc

theorem resolveLoop_noCycle {cfg : ConfigDict} :
    ∀ (entries : ConfigDict) (res m : List (String × Config)),
      (∀ n c, (n, c) ∈ entries → lookupCfg cfg n = some c) →
      CycInv cfg res →
      resolveLoop cfg entries res = .ok m →
      ∀ n c, (n, c) ∈ entries → ¬ OnCycle cfg n := by
  intro entries
  induction entries with
  | nil =>
    intro res m _ _ _ n c hc
    exact absurd hc (List.not_mem_nil _)
  | cons e rest ih =>
    intro res m hentry hinv h n c hc
    obtain ⟨name, config⟩ := e
    rw [resolveLoop] at h
    split at h
    · rename_i hcached
      rcases List.mem_cons.mp hc with heq | hmem
      · rcases hcache : lookupCfg res name with _ | rv
        · rw [hcache] at hcached; exact absurd hcached (by simp)
        · have he : n = name := congrArg Prod.fst heq
          rw [he]
          exact hinv name rv (lookupCfg_mem hcache)
      · exact ih res m (fun n' c' hc' => hentry n' c' (List.mem_cons_of_mem _ hc'))
            hinv h n c hmem
    · split at h
      · exact absurd h (by simp)
      · rename_i r' res' hsingle
        have hlook : lookupCfg cfg name = some config :=
          hentry name config (List.mem_cons_self _ _)
        obtain ⟨hinv', hnc⟩ := resolveSingle_noCycle _ hsingle hlook hinv
        rcases List.mem_cons.mp hc with heq | hmem
        · have he : n = name := congrArg Prod.fst heq
          rw [he]
          exact hnc
        · exact ih res' m (fun n' c' hc' => hentry n' c' (List.mem_cons_of_mem _ hc'))
            hinv' h n c hmem

/-- An entry whose parent is missing from the map is never memoized by a
successful resolution of any other entry. -/
theorem resolveSingle_keeps_bad_out {cfg : ConfigDict} {bad : String} {cbad : Config}
    {pbad : String} (hbadlook : lookupCfg cfg bad = some cbad)
    (hbadmark : dictGet cbad inheritsKey = some pbad)
    (hbadmiss : lookupCfg cfg pbad = none) :
    ∀ (fuel : Nat) {n : String} {c : Config} {vis : List String}
      {res : List (String × Config)} {r : Config} {res₂ : List (String × Config)},
      resolveSingle cfg fuel n c vis res = .ok (r, res₂) →
      lookupCfg cfg n = some c →
      lookupCfg res bad = none → lookupCfg res₂ bad = none := by
  intro fuel
  induction fuel with
  | zero =>
    intro n c vis res r res₂ h
    exact absurd h (by simp [resolveSingle])
  | succ fuel ih =>
    intro n c vis res r res₂ h hn hmiss
    rw [resolveSingle] at h
    split at h
    · exact absurd h (by simp)
    · split at h
      · obtain ⟨h1, h2⟩ := Prod.mk.inj (Except.ok.inj h)
        rw [← h2]
        exact hmiss
      · split at h
        · rename_i hnomark
          obtain ⟨h1, h2⟩ := Prod.mk.inj (Except.ok.inj h)
          rw [← h2]
          have hne : n ≠ bad := by
            intro hcontra
            subst hcontra
            rw [hn] at hbadlook
            have := Option.some.inj hbadlook
            rw [← this] at hbadmark
            rw [hnomark] at hbadmark
            exact Option.noConfusion hbadmark
          rw [lookupCfg_append, hmiss]
          simp [Option.orElse, lookupCfg_cons, lookupCfg, hne]
        · rename_i parentName hmark
          split at h
          · exact absurd h (by simp)
          · rename_i parentConfig hparent
            split at h
            · exact absurd h (by simp)
            · rename_i rp res' hrec
              obtain ⟨h1, h2⟩ := Prod.mk.inj (Except.ok.inj h)
              rw [← h2]
              have hres' := ih hrec hparent hmiss
              have hne : n ≠ bad := by
                intro hcontra
                subst hcontra
                rw [hn] at hbadlook
                have hceq := Option.some.inj hbadlook
                rw [← hceq] at hbadmark
                rw [hmark] at hbadmark
                have hpe := Option.some.inj hbadmark
                rw [← hpe] at hbadmiss
                rw [hparent] at hbadmiss
                exact Option.noConfusion hbadmiss
              rw [lookupCfg_append, hres']
              simp [Option.orElse, lookupCfg_cons, lookupCfg, hne]

theorem resolveLoop_missing_parent {cfg : ConfigDict} {bad : String} {cbad : Config}
    {pbad : String} (hbadlook : lookupCfg cfg bad = some cbad)
    (hbadmark : dictGet cbad inheritsKey = some pbad)
    (hbadmiss : lookupCfg cfg pbad = none) :
    ∀ (entries : ConfigDict) (res m : List (String × Config)),
      (bad, cbad) ∈ entries →
      (∀ n c, (n, c) ∈ entries → lookupCfg cfg n = some c) →
      lookupCfg res bad = none →
      resolveLoop cfg entries res ≠ .ok m := by
  intro entries
  induction entries with
  | nil =>
    intro res m hbadmem
    exact absurd hbadmem (List.not_mem_nil _)
  | cons e rest ih =>
    intro res m hbadmem hentry hmiss h
    obtain ⟨name, config⟩ := e
    rw [resolveLoop] at h
    by_cases hname : name = bad
    · subst hname
      have hcfg : config = cbad := by
        have h1 := hentry name config (List.mem_cons_self _ _)
        rw [h1] at hbadlook
        exact Option.some.inj hbadlook
      subst hcfg
      rw [hmiss] at h
      simp only [Option.isSome_none, Bool.false_eq_true, if_false] at h
      have hev : resolveSingle cfg (cfg.length + 1) name config [] res =
          .error (.missingParent name pbad) := by
        rw [resolveSingle]
        rw [if_neg (List.not_mem_nil name)]
        simp only [hmiss, hbadmark, hbadmiss]
      rw [hev] at h
      exact Except.noConfusion h
    · split at h
      · rcases List.mem_cons.mp hbadmem with heq | hmem
        · exact hname (congrArg Prod.fst heq).symm
        · exact ih res m hmem
            (fun n c hc => hentry n c (List.mem_cons_of_mem _ hc)) hmiss h
      · split at h
        · exact Except.noConfusion h
        · rename_i r' res' hsingle
          rcases List.mem_cons.mp hbadmem with heq | hmem
          · exact hname (congrArg Prod.fst heq).symm
          · have hlook : lookupCfg cfg name = some config :=
              hentry name config (List.mem_cons_self _ _)
            have hmiss' := resolveSingle_keeps_bad_out hbadlook hbadmark hbadmiss
              _ hsingle hlook hmiss
            exact ih res' m hmem
              (fun n c hc => hentry n c (List.mem_cons_of_mem _ hc)) hmiss' h

/-- C8.  Inheritance safety: if some entry names a parent absent from the map,
or some entry lies on an inheritance cycle (its `__inherits__` chain revisits
it), then `resolve_config_inheritance` raises `ConfigError` (an error that is
not the unreachable fuel artifact), and no resolved configuration is
returned. -/
theorem config_inheritance_safety (cfg : ConfigDict)
    (hnd : (cfg.map Prod.fst).Nodup) :
    (∀ n c p, (n, c) ∈ cfg → dictGet c inheritsKey = some p → p ∉ cfg.map Prod.fst →
      ∃ e, resolveConfigInheritance cfg = .error e ∧ e ≠ .fuelOut) ∧
    (∀ n c, (n, c) ∈ cfg → OnCycle cfg n →
      ∃ e, resolveConfigInheritance cfg = .error e ∧ e ≠ .fuelOut) := by
  constructor
  · intro n c p hmem hmark habsent
    cases hres : resolveConfigInheritance cfg with
    | ok m =>
      exact absurd hres (resolveLoop_missing_parent (mem_lookupCfg hnd hmem) hmark
        (lookupCfg_eq_none_of_not_mem habsent) cfg [] m hmem
        (fun n' c' hc' => mem_lookupCfg hnd hc') rfl)
    | error e =>
      refine ⟨e, rfl, ?_⟩
      intro hcontra
      subst hcontra
      exact resolveConfigInheritance_no_fuelOut cfg hres
  · intro n c hmem hcyc
    cases hres : resolveConfigInheritance cfg with
    | ok m =>
      exact absurd hcyc (resolveLoop_noCycle cfg [] m
        (fun n' c' hc' => mem_lookupCfg hnd hc')
        (fun n' r' hr' => absurd hr' (List.not_mem_nil _)) hres n c hmem)
    | error e =>
      refine ⟨e, rfl, ?_⟩
      intro hcontra
      subst hcontra
      exact resolveConfigInheritance_no_fuelOut cfg hres

/-- A configuration whose entry names a missing parent. -/
def cfgMissingParent : ConfigDict := [("a", [("__inherits__", "zzz")])]

/-- A configuration with a two-node inheritance cycle. -/
def cfgCycle : ConfigDict :=
  [("a", [("__inherits__", "b")]), ("b", [("__inherits__", "a")])]

theorem config_inheritance_safety_witness :
    (resolveConfigInheritance cfgMissingParent).isOk = false ∧
      (resolveConfigInheritance cfgCycle).isOk = false := by
  constructor
  · obtain ⟨e, he, _⟩ := (config_inheritance_safety cfgMissingParent (by decide)).1
      "a" [("__inherits__", "zzz")] "zzz" (by decide) (by decide) (by decide)
    rw [he]
    rfl
  · obtain ⟨e, he, _⟩ := (config_inheritance_safety cfgCycle (by decide)).2
      "a" [("__inherits__", "b")] (by decide) ⟨1, by decide⟩
    rw [he]
    rfl

/-! ## PrefixedBlobBackend (`core/storage/backends/prefixed_backend.py`) -/

/-- Blob metadata as returned by `list_blobs` (only the fields the prefix
wrapper touches are modelled). -/
structure BlobMetadata where
  key : String
  size : Nat
  deriving DecidableEq, Repr

/-- `BlobListResult` of the blob backend contract. -/
structure BlobListResult where
  blobs : List BlobMetadata
  prefixes : List String
  is_truncated : Bool
  next_marker : Option String
  deriving DecidableEq, Repr

/-- Python `s.startswith(pfx)`: character-level prefix test. -/
def pyStartsWith (s pfx : String) : Bool :=
  pfx.data.isPrefixOf s.data

/-- Python `s[n:]`: drop the first `n` characters. -/
def pyDrop (s : String) (n : Nat) : String :=
  ⟨s.data.drop n⟩

/-- Python `len(s)` in characters. -/
def pyLen (s : String) : Nat :=
  s.data.length

/-- Lexicographic strict order on character lists (Python's `<` on strings,
code-point order). -/
def charListLt : List Char → List Char → Bool
  | [], [] => false
  | [], _ :: _ => true
  | _ :: _, [] => false
  | a :: as, b :: bs =>
    if a < b then true else if b < a then false else charListLt as bs

/-- Lexicographic `<=` on character lists. -/
def charListLe : List Char → List Char → Bool
  | [], _ => true
  | _ :: _, [] => false
  | a :: as, b :: bs =>
    if a < b then true else if b < a then false else charListLe as bs

/-- Python string `<` (code-point lexicographic). -/
def strLt (a b : String) : Bool := charListLt a.data b.data

/-- Python string `<=`. -/
def strLe (a b : String) : Bool := charListLe a.data b.data

/-- `prefix.rstrip("/")`. -/
def rstripSlash (s : String) : String :=
  ⟨(s.data.reverse.dropWhile (fun c => c == '/')).reverse⟩

/-- `self._prefix = prefix.rstrip("/") + "/" if prefix else ""` from
`PrefixedBlobBackend.__init__` (`if prefix` is Python's emptiness test). -/
def normalizePfx (p : String) : String :=
  if p = "" then "" else rstripSlash p ++ "/"

/-- `_add_prefix`: `self._prefix + key if self._prefix else key`. -/
def addPfx (pfx key : String) : String :=
  if pfx = "" then key else pfx ++ key

/-- `_remove_prefix`: `key[len(self._prefix):] if self._prefix and
key.startswith(self._prefix) else key`. -/
def removePfx (pfx key : String) : String :=
  if pfx = "" then key
  else if pyStartsWith key pfx then pyDrop key (pyLen pfx)
  else key

/-- `full_prefix = self._add_prefix(prefix) if prefix else self._prefix or None`. -/
def fullPfx (myPfx : String) (user : Option String) : Option String :=
  match user with
  | some p =>
    if p = "" then (if myPfx = "" then none else some myPfx)
    else some (addPfx myPfx p)
  | none => if myPfx = "" then none else some myPfx

/-- The delegate backend's `list_blobs`, as an opaque function of
(prefix, delimiter, max_results, marker). -/
abbrev DelegateList := Option String → Option String → Nat → Option String → BlobListResult

/-- `PrefixedBlobBackend.list_blobs`: combines the decorator prefix with the
caller's prefix, delegates, strips the prefix from the returned blob keys and
prefixes, and passes `is_truncated` and `next_marker` through. -/
def prefixedListBlobs (praw : String) (delegate : DelegateList)
    (pfx? delim : Option String) (maxResults : Nat) (marker : Option String) :
    BlobListResult :=
  let myPfx := normalizePfx praw
  let res := delegate (fullPfx myPfx pfx?) delim maxResults marker
  { blobs := res.blobs.map (fun b => { b with key := removePfx myPfx b.key }),
    prefixes := res.prefixes.map (removePfx myPfx),
    is_truncated := res.is_truncated,
    next_marker := res.next_marker }

theorem string_append_ne_self {s : String} (t : String) (h : s ≠ "") : s ++ t ≠ t := by
  intro hcontra
  apply h
  have hdata := congrArg String.data hcontra
  rw [String.data_append] at hdata
  have hlen := congrArg List.length hdata
  rw [List.length_append] at hlen
  have : s.data.length = 0 := by omega
  have : s.data = [] := List.length_eq_zero.mp this
  exact congrArg String.mk this

theorem normalizePfx_ne_empty {p : String} (h : p ≠ "") : normalizePfx p ≠ "" := by
  unfold normalizePfx
  rw [if_neg h]
  intro hcontra
  have hdata := congrArg String.data hcontra
  rw [String.data_append] at hdata
  have hlen := congrArg List.length hdata
  rw [List.length_append] at hlen
  simp at hlen

theorem pyStartsWith_append (pfx key : String) : pyStartsWith (pfx ++ key) pfx = true := by
  unfold pyStartsWith
  rw [String.data_append]
  rw [List.isPrefixOf_iff_prefix]
  exact List.prefix_append _ _

theorem pyDrop_append (pfx key : String) : pyDrop (pfx ++ key) (pyLen pfx) = key := by
  unfold pyDrop pyLen
  rw [String.data_append, List.drop_left]

/-- Round trip: stripping after adding recovers the key (the wrapper's
invariants (a)/(b) for keys the delegate reports under the full prefix). -/
theorem removePfx_addPfx (pfx key : String) : removePfx pfx (addPfx pfx key) = key := by
  unfold addPfx removePfx
  by_cases hp : pfx = ""
  · rw [if_pos hp, if_pos hp]
  · rw [if_neg hp, if_neg hp, if_pos (pyStartsWith_append pfx key), pyDrop_append]

/-- Delegate used to exercise `prefixedListBlobs`: returns a truncated page
whose keys, prefixes and continuation marker all live under `pre/path/`. -/
def c9Delegate : DelegateList := fun _ _ _ _ =>
  { blobs := [⟨"pre/path/docs/a.txt", 3⟩],
    prefixes := ["pre/path/docs/"],
    is_truncated := true,
    next_marker := some "pre/path/m1" }

/-- C9 counterexample: the canonical `core/` wrapper passes `next_marker`
through unchanged even though it begins with the decorator prefix, while keys
and prefixes are stripped — the marker is not stripped as the claim states. -/
theorem prefixed_next_marker_counterexample :
    (prefixedListBlobs "pre/path" c9Delegate none none 1000 none).next_marker
        = some "pre/path/m1" ∧
    removePfx (normalizePfx "pre/path") "pre/path/m1" = "m1" ∧
    (prefixedListBlobs "pre/path" c9Delegate none none 1000 none).blobs
        = [⟨"docs/a.txt", 3⟩] ∧
    (prefixedListBlobs "pre/path" c9Delegate none none 1000 none).prefixes
        = ["docs/"] ∧
    ("pre/path/m1" : String) ≠ "m1" := by
  refine ⟨rfl, by decide, by decide, by decide, by decide⟩

/-- C9 amended.  For every `PrefixedBlobBackend` with a non-empty prefix and
every list call whose delegate returns a `next_marker` beginning with the
normalized prefix, the `next_marker` field returned to the caller is passed
through unchanged — it still carries the prefix and is not the stripped
marker — whereas the keys of the returned blobs and prefixes are stripped. -/
theorem prefixed_next_marker_passthrough (praw : String) (delegate : DelegateList)
    (pfx? delim : Option String) (mx : Nat) (marker : Option String) (nm : String)
    (hp : praw ≠ "")
    (hnm : (delegate (fullPfx (normalizePfx praw) pfx?) delim mx marker).next_marker =
      some (normalizePfx praw ++ nm)) :
    (prefixedListBlobs praw delegate pfx? delim mx marker).next_marker =
      some (normalizePfx praw ++ nm) ∧
    normalizePfx praw ++ nm ≠ nm ∧
    (prefixedListBlobs praw delegate pfx? delim mx marker).blobs =
      ((delegate (fullPfx (normalizePfx praw) pfx?) delim mx marker).blobs.map
        (fun b => { b with key := removePfx (normalizePfx praw) b.key })) ∧
    (prefixedListBlobs praw delegate pfx? delim mx marker).prefixes =
      ((delegate (fullPfx (normalizePfx praw) pfx?) delim mx marker).prefixes.map
        (removePfx (normalizePfx praw))) := by
  exact ⟨hnm, string_append_ne_self nm (normalizePfx_ne_empty hp), rfl, rfl⟩

theorem prefixed_next_marker_passthrough_witness :
    (prefixedListBlobs "pre/path" c9Delegate none none 1000 none).next_marker =
      some (normalizePfx "pre/path" ++ "m1") ∧
    normalizePfx "pre/path" ++ "m1" ≠ "m1" ∧
    (prefixedListBlobs "pre/path" c9Delegate none none 1000 none).blobs =
      ((c9Delegate (fullPfx (normalizePfx "pre/path") none) none 1000 none).blobs.map
        (fun b => { b with key := removePfx (normalizePfx "pre/path") b.key })) ∧
    (prefixedListBlobs "pre/path" c9Delegate none none 1000 none).prefixes =
      ((c9Delegate (fullPfx (normalizePfx "pre/path") none) none 1000 none).prefixes.map
        (removePfx (normalizePfx "pre/path"))) := by
  exact prefixed_next_marker_passthrough "pre/path" c9Delegate none none 1000 none "m1"
    (by decide) (by decide)

/-! ## Silver layer (`data/layers/silver.py`)

Bronze rows carry the raw J-Quants columns; float columns are modelled as
rationals, the `Date` string as an already-parsed day number (the strict
`%Y-%m-%d` parse is injective on valid dates), and nullable columns as
options. -/

/-- A raw bronze `daily_quotes` row (columns touched by the normalization). -/
structure RawQuote where
  code : Option String
  date : Option Nat
  opn : Option ℚ
  high : Option ℚ
  low : Option ℚ
  close : Option ℚ
  volume : Option Int
  turnoverValue : Option ℚ
  adjustmentFactor : Option ℚ
  adjClose : Option ℚ
  deriving DecidableEq, Repr

/-- A normalized silver `daily_prices` row. -/
structure NormRow where
  code : Option String
  date : Option Nat
  opn : Option ℚ
  high : Option ℚ
  low : Option ℚ
  close : Option ℚ
  volume : Option Int
  turnoverValue : Option ℚ
  adjustmentFactor : Option ℚ
  adjClose : Option ℚ
  processedAt : String
  deriving DecidableEq, Repr

/-- The `select` projection of `_normalize_daily_quotes_schema` (renames and
casts; casts are the identity in this model, nulls pass through). -/
def toNorm (r : RawQuote) (processedAt : String) : NormRow :=
  { code := r.code, date := r.date, opn := r.opn, high := r.high, low := r.low,
    close := r.close, volume := r.volume, turnoverValue := r.turnoverValue,
    adjustmentFactor := r.adjustmentFactor, adjClose := r.adjClose,
    processedAt := processedAt }

/-- The `.filter` dropping rows with null `code`, `date` or `close`. -/
def keepCoreRow (r : NormRow) : Bool :=
  r.code.isSome && r.date.isSome && r.close.isSome

/-- `with_columns`: where `adj_close` is null, `close * coalesce(adjustment_factor, 1.0)`. -/
def fillAdjClose (r : NormRow) : NormRow :=
  { r with adjClose :=
      match r.adjClose with
      | some a => some a
      | none => r.close.map (fun c => c * (r.adjustmentFactor.getD 1)) }

/-- `sort(["code", "date"])` (nulls were already dropped from both keys). -/
def sortByCodeDate (l : List NormRow) : List NormRow :=
  l.insertionSort (fun a b =>
    strLt (a.code.getD "") (b.code.getD "") = true ∨
      (a.code.getD "" = b.code.getD "" ∧ a.date.getD 0 ≤ b.date.getD 0))

/-- `_normalize_daily_quotes_schema`. -/
def normalizeDailyQuotesSchema (raw : List RawQuote) (processedAt : String) :
    List NormRow :=
  sortByCodeDate (((raw.map (toNorm · processedAt)).filter keepCoreRow).map fillAdjClose)

/-- Null-propagating `<` of polars expressions (`null` compares to nothing). -/
def optLt (a b : Option ℚ) : Bool :=
  match a, b with
  | some x, some y => decide (x < y)
  | _, _ => false

/-- The OHLC-violation filter of `_validate_daily_quotes`:
`high < low  ∨  high < open  ∨  high < close  ∨  low > open  ∨  low > close`. -/
def badOhlc (r : NormRow) : Bool :=
  optLt r.high r.low || optLt r.high r.opn || optLt r.high r.close ||
    optLt r.opn r.low || optLt r.close r.low

/-- `df["close"].min()` (polars ignores nulls; `None` on an empty frame). -/
def minClose (df : List NormRow) : Option ℚ :=
  (df.filterMap (fun r => r.close)).min?

/-- `_validate_daily_quotes`.  The required columns are structurally present
in this typed embedding; the max-close branch only warns.  On an empty frame
the source evaluates `None <= 0` and raises `TypeError`; that raise is the
first error branch of the `match` below. -/
def validateDailyQuotes (df : List NormRow) : Except String Unit :=
  if df.countP (fun r => r.code.isNone) > 0 then
    .error "null codes"
  else if df.countP (fun r => r.close.isNone) > 0 then
    .error "null close prices"
  else
    match minClose df with
    | none => .error "TypeError: NoneType comparison"
    | some m =>
      if m ≤ 0 then
        .error "non-positive close prices"
      else if df.countP badOhlc > 0 then
        .error "invalid OHLC relationships"
      else
        .ok ()

/-- `_get_silver_key` (`date.isoformat()` modelled by the injective decimal
rendering of the day number). -/
def silverKey (table : String) (d : Nat) : String :=
  table ++ "/" ++ toString d ++ "/data.parquet"

/-- The silver blob store: key string to stored rows (Parquet serialization
is injective, so file bytes are identified with their row content). -/
abbrev SilverStore := String → Option (List NormRow)

/-- `put` on a blob store. -/
def storePut {α : Type} (s : String → Option α) (k : String) (v : α) :
    String → Option α :=
  fun k' => if k' = k then some v else s k'

/-- Outcome of one `normalize_daily_quotes` call: the resulting store, the
returned key (or raised error), and whether Bronze was read. -/
structure NormalizeOutcome where
  store : SilverStore
  result : Except String (Option String)
  readBronze : Bool

/-- `SilverStorage.normalize_daily_quotes(date, force_refresh)`, with the
Bronze read modelled as a function from the date to the raw rows. -/
def normalizeDailyQuotes (store : SilverStore) (bronzeRead : Nat → List RawQuote)
    (d : Nat) (force : Bool) (processedAt : String) : NormalizeOutcome :=
  let key := silverKey "daily_prices" d
  if (store key).isSome && !force then
    ⟨store, .ok (some key), false⟩
  else
    let raw := bronzeRead d
    if raw.isEmpty then
      ⟨store, .ok none, true⟩
    else
      let normalized := normalizeDailyQuotesSchema raw processedAt
      match validateDailyQuotes normalized with
      | .error e => ⟨store, .error e, true⟩
      | .ok _ => ⟨storePut store key normalized, .ok (some key), true⟩

/-! ### Claim C7: silver normalize idempotence -/

/-- C7.  For every date whose partition is present after a first
`normalize_daily_quotes` call (in particular whenever that call wrote it), a
second call with `force_refresh=false` returns the same key, leaves the store
(hence the stored bytes of the partition) unchanged, and performs no Bronze
read — even if the Bronze data or the processing timestamp changed. -/
theorem silver_normalize_idempotent (store : SilverStore) (br : Nat → List RawQuote)
    (d : Nat) (force : Bool) (pa : String) (br₂ : Nat → List RawQuote) (pa₂ : String)
    (hwrote : ((normalizeDailyQuotes store br d force pa).store
      (silverKey "daily_prices" d)).isSome = true) :
    normalizeDailyQuotes ((normalizeDailyQuotes store br d force pa).store) br₂ d false pa₂ =
      ⟨(normalizeDailyQuotes store br d force pa).store,
        .ok (some (silverKey "daily_prices" d)), false⟩ := by
  conv_lhs => rw [normalizeDailyQuotes]
  rw [if_pos]
  rw [hwrote]
  rfl

/-- Empty silver store for the concrete scenarios. -/
def silverEmptyStore : SilverStore := fun _ => none

/-- The Bronze row of the specification's silver-normalization scenario. -/
def goodRaw : RawQuote :=
  { code := some "1301", date := some 19738, opn := some 101, high := some 105,
    low := some 98, close := some 102, volume := some 100000,
    turnoverValue := some 500000, adjustmentFactor := some (11 / 10 : ℚ),
    adjClose := none }

theorem silver_normalize_idempotent_witness :
    normalizeDailyQuotes
        ((normalizeDailyQuotes silverEmptyStore (fun _ => [goodRaw]) 19738 false "t1").store)
        (fun _ => []) 19738 false "t2" =
      ⟨(normalizeDailyQuotes silverEmptyStore (fun _ => [goodRaw]) 19738 false "t1").store,
        .ok (some (silverKey "daily_prices" 19738)), false⟩ :=
  silver_normalize_idempotent silverEmptyStore (fun _ => [goodRaw]) 19738 false "t1"
    (fun _ => []) "t2" (by decide)

/-! ### Claim C3: silver validation -/

theorem validateDailyQuotes_ok_code {df : List NormRow}
    (h : validateDailyQuotes df = .ok ()) : ∀ r ∈ df, r.code.isSome = true := by
  unfold validateDailyQuotes at h
  split at h
  · exact absurd h (by simp)
  · rename_i hcode
    intro r hr
    have hzero : df.countP (fun r => r.code.isNone) = 0 := by omega
    have := List.countP_eq_zero.mp hzero r hr
    simpa [Option.isNone_iff_eq_none, ← Option.isSome_iff_ne_none] using this

theorem validateDailyQuotes_ok_closePos {df : List NormRow}
    (h : validateDailyQuotes df = .ok ()) :
    ∀ r ∈ df, ∃ c, r.close = some c ∧ 0 < c := by
  unfold validateDailyQuotes at h
  split at h
  · exact absurd h (by simp)
  · split at h
    · exact absurd h (by simp)
    · rename_i hcode hclose
      split at h
      · exact absurd h (by simp)
      · rename_i m hmin
        split at h
        · exact absurd h (by simp)
        · rename_i hmpos
          intro r hr
          have hzero : df.countP (fun r => r.close.isNone) = 0 := by omega
          have hnn := List.countP_eq_zero.mp hzero r hr
          rcases hc : r.close with _ | c
          · rw [hc] at hnn; simp at hnn
          · refine ⟨c, rfl, ?_⟩
            have hmem : c ∈ df.filterMap (fun r => r.close) :=
              List.mem_filterMap.mpr ⟨r, hr, hc⟩
            have hle : m ≤ c := by
              have hiff := @List.min?_eq_some_iff ℚ m _ _
                ⟨@fun _ _ h1 h2 => le_antisymm h1 h2⟩
                (fun a => le_refl a) (fun a b => min_choice a b)
                (fun a b c => le_min_iff) (df.filterMap (fun r => r.close))
              exact (hiff.mp hmin).2 c hmem
            have : ¬ m ≤ 0 := hmpos
            linarith [not_le.mp this]

theorem validateDailyQuotes_ok_ohlc {df : List NormRow}
    (h : validateDailyQuotes df = .ok ()) : ∀ r ∈ df, badOhlc r = false := by
  unfold validateDailyQuotes at h
  split at h
  · exact absurd h (by simp)
  · split at h
    · exact absurd h (by simp)
    · split at h
      · exact absurd h (by simp)
      · split at h
        · exact absurd h (by simp)
        · split at h
          · exact absurd h (by simp)
          · rename_i hbadcnt
            intro r hr
            have hzero : df.countP badOhlc = 0 := by omega
            have := List.countP_eq_zero.mp hzero r hr
            simpa using this

theorem badOhlc_false_relations {r : NormRow} {h o l c : ℚ}
    (hb : badOhlc r = false) (hh : r.high = some h) (ho : r.opn = some o)
    (hl : r.low = some l) (hc : r.close = some c) :
    o ≤ h ∧ c ≤ h ∧ l ≤ h ∧ l ≤ o ∧ l ≤ c := by
  unfold badOhlc optLt at hb
  rw [hh, ho, hl, hc] at hb
  simp only [Bool.or_eq_false_iff, decide_eq_false_iff_not, not_lt] at hb
  exact ⟨hb.1.1.1.2, hb.1.1.2, hb.1.1.1.1, hb.1.2, hb.2⟩

theorem mem_normalizeSchema_core {raw : List RawQuote} {pa : String} {r : NormRow}
    (hr : r ∈ normalizeDailyQuotesSchema raw pa) :
    r.code.isSome = true ∧ r.date.isSome = true ∧ r.close.isSome = true := by
  unfold normalizeDailyQuotesSchema sortByCodeDate at hr
  rw [(List.perm_insertionSort _ _).mem_iff] at hr
  rcases List.mem_map.mp hr with ⟨r', hr', hfill⟩
  have hkeep := (List.mem_filter.mp hr').2
  unfold keepCoreRow at hkeep
  simp only [Bool.and_eq_true] at hkeep
  rw [← hfill]
  unfold fillAdjClose
  exact ⟨hkeep.1.1, hkeep.1.2, hkeep.2⟩

theorem validateDailyQuotes_error_of_bad {df : List NormRow}
    (hbad : (∃ r ∈ df, badOhlc r = true) ∨ (∃ r ∈ df, ∃ c, r.close = some c ∧ c ≤ 0)) :
    ∃ e, validateDailyQuotes df = .error e := by
  cases hres : validateDailyQuotes df with
  | error e => exact ⟨e, rfl⟩
  | ok u =>
    cases u
    exfalso
    rcases hbad with ⟨r, hr, hb⟩ | ⟨r, hr, c, hc, hle⟩
    · have := validateDailyQuotes_ok_ohlc hres r hr
      rw [hb] at this
      exact Bool.noConfusion this
    · obtain ⟨c', hc', hpos⟩ := validateDailyQuotes_ok_closePos hres r hr
      rw [hc] at hc'
      have := Option.some.inj hc'
      rw [← this] at hpos
      linarith

/-- C3 amended.  Silver validation: every row written by
`normalize_daily_quotes` has non-null `code`, `date`, and `close` with
`close > 0` (null-core rows having been dropped before validation, the write
being a permutation of the adj-close-filled survivors), and every written row
whose `open`, `high`, `low` are non-null satisfies the OHLC relations
`high >= max(open, close, low)` and `low <= min(open, close, high)`; and
whenever the non-short-circuited call sees a surviving row that violates the
OHLC filter or has `close <= 0`, validation raises a data-quality error and
nothing is written.  (Rows with null OHLC fields pass the null-propagating
polars filter, so the unconditional inequalities of the original claim fail;
see the counterexample.) -/
theorem silver_validation (store : SilverStore) (br : Nat → List RawQuote)
    (d : Nat) (force : Bool) (pa : String) :
    ((normalizeDailyQuotes store br d force pa).readBronze = true →
      (normalizeDailyQuotes store br d force pa).result =
        .ok (some (silverKey "daily_prices" d)) →
      (normalizeDailyQuotes store br d force pa).store (silverKey "daily_prices" d) =
          some (normalizeDailyQuotesSchema (br d) pa) ∧
        validateDailyQuotes (normalizeDailyQuotesSchema (br d) pa) = .ok () ∧
        (normalizeDailyQuotesSchema (br d) pa).Perm
          ((((br d).map (toNorm · pa)).filter keepCoreRow).map fillAdjClose) ∧
        (∀ r ∈ normalizeDailyQuotesSchema (br d) pa,
          r.code.isSome = true ∧ r.date.isSome = true ∧ ∃ c, r.close = some c ∧ 0 < c) ∧
        (∀ r ∈ normalizeDailyQuotesSchema (br d) pa, ∀ h o l c : ℚ,
          r.high = some h → r.opn = some o → r.low = some l → r.close = some c →
          o ≤ h ∧ c ≤ h ∧ l ≤ h ∧ l ≤ o ∧ l ≤ c)) ∧
    (((store (silverKey "daily_prices" d)).isSome && !force) = false →
      (br d).isEmpty = false →
      ((∃ r ∈ normalizeDailyQuotesSchema (br d) pa, badOhlc r = true) ∨
        (∃ r ∈ normalizeDailyQuotesSchema (br d) pa, ∃ c, r.close = some c ∧ c ≤ 0)) →
      ∃ e, (normalizeDailyQuotes store br d force pa).result = .error e ∧
        (normalizeDailyQuotes store br d force pa).store = store) := by
  constructor
  · intro hrb hres
    by_cases hshort : ((store (silverKey "daily_prices" d)).isSome && !force) = true
    · have hfalse : (normalizeDailyQuotes store br d force pa).readBronze = false := by
        simp only [normalizeDailyQuotes, hshort, if_true]
      rw [hfalse] at hrb
      exact absurd hrb (by simp)
    · rw [Bool.not_eq_true] at hshort
      cases hraw : (br d).isEmpty with
      | true =>
        have hnone : (normalizeDailyQuotes store br d force pa).result = .ok none := by
          simp only [normalizeDailyQuotes, hshort, Bool.false_eq_true, if_false, hraw,
            if_true]
        rw [hnone] at hres
        exact absurd (Except.ok.inj hres) (by simp)
      | false =>
        cases hval : validateDailyQuotes (normalizeDailyQuotesSchema (br d) pa) with
        | error e =>
          have herr : (normalizeDailyQuotes store br d force pa).result = .error e := by
            simp only [normalizeDailyQuotes, hshort, Bool.false_eq_true, if_false, hraw,
              hval]
          rw [herr] at hres
          exact Except.noConfusion hres
        | ok u =>
          cases u
          have hout : normalizeDailyQuotes store br d force pa =
              ⟨storePut store (silverKey "daily_prices" d)
                  (normalizeDailyQuotesSchema (br d) pa),
                .ok (some (silverKey "daily_prices" d)), true⟩ := by
            simp only [normalizeDailyQuotes, hshort, Bool.false_eq_true, if_false, hraw,
              hval]
          refine ⟨?_, by simp [hval], ?_, ?_, ?_⟩
          · rw [hout]
            unfold storePut
            simp
          · unfold normalizeDailyQuotesSchema sortByCodeDate
            exact List.perm_insertionSort _ _
          · intro r hr
            have hcore := mem_normalizeSchema_core hr
            exact ⟨hcore.1, hcore.2.1, validateDailyQuotes_ok_closePos hval r hr⟩
          · intro r hr h o l c hh ho hl hc
            exact badOhlc_false_relations (validateDailyQuotes_ok_ohlc hval r hr) hh ho hl hc
  · intro hshort hraw hbad
    obtain ⟨e, he⟩ := validateDailyQuotes_error_of_bad hbad
    have hout : normalizeDailyQuotes store br d force pa = ⟨store, .error e, true⟩ := by
      simp only [normalizeDailyQuotes, hshort, Bool.false_eq_true, if_false, hraw, he]
    exact ⟨e, by rw [hout], by rw [hout]⟩

/-- A bronze row with non-null core fields but all-null `Open/High/Low`
(a non-traded day): it survives normalization and validation. -/
def nullHighRaw : RawQuote :=
  { code := some "1301", date := some 1, opn := none, high := none, low := none,
    close := some 5, volume := some 0, turnoverValue := none,
    adjustmentFactor := none, adjClose := none }

/-- C3 counterexample: a partition written by `normalize_daily_quotes` can
contain a row whose `high` is null (the written partition's `high` column
below is `[none]`), so the written row does not satisfy
`high >= max(open, close, low)` — the validation's null-propagating
comparisons let it through. -/
theorem silver_validation_counterexample :
    (normalizeDailyQuotes silverEmptyStore (fun _ => [nullHighRaw]) 1 false "t").result =
        .ok (some (silverKey "daily_prices" 1)) ∧
    ((normalizeDailyQuotes silverEmptyStore (fun _ => [nullHighRaw]) 1 false "t").store
        (silverKey "daily_prices" 1)).map (fun rows => rows.map (fun r => r.high)) =
      some [none] := by
  constructor
  · rfl
  · rfl

/-- A surviving row whose `High < Low` (both non-null). -/
def badOhlcRaw : RawQuote :=
  { nullHighRaw with high := some 1, low := some 6, opn := some 2 }

theorem silver_validation_witness :
    ∃ e, (normalizeDailyQuotes silverEmptyStore (fun _ => [badOhlcRaw])
        1 false "t").result = .error e ∧
      (normalizeDailyQuotes silverEmptyStore (fun _ => [badOhlcRaw])
        1 false "t").store = silverEmptyStore := by
  exact (silver_validation silverEmptyStore (fun _ => [badOhlcRaw]) 1 false "t").2
    (by decide) (by decide)
    (Or.inl ⟨fillAdjClose (toNorm badOhlcRaw "t"), List.mem_singleton.mpr rfl, by rfl⟩)

/-! ## Gold layer (`data/layers/gold.py`)

Gold rows are the silver `daily_prices` rows after validation: `code` and
`date` are non-null there, so the gold pipeline (which only inspects those
two columns) is modelled over rows with plain `code`/`date` fields and a
rational payload standing for the remaining price columns. -/

/-- A gold/silver timeseries row as seen by the gold merge. -/
structure SRow where
  code : String
  date : Nat
  px : ℚ
  deriving DecidableEq, Repr

/-- The gold blob store (key string to Parquet-file rows). -/
abbrev GoldStore := String → Option (List SRow)

/-- `delete` on a blob store. -/
def storeDel {α : Type} (s : String → Option α) (k : String) : String → Option α :=
  fun k' => if k' = k then none else s k'

/-- `_get_gold_key`. -/
def goldKey (code : String) : String :=
  "daily_prices/" ++ code ++ "/data.parquet"

/-- The successive store states of `_write_atomic`: the initial state, after
`put(key + ".tmp", bytes)`, after `put(key, get(key + ".tmp"))`, and after
`delete(key + ".tmp")`.  (The `get` always succeeds right after the `put`;
the `none` fallback is unreachable.) -/
def writeAtomicStates (s : GoldStore) (key : String) (df : List SRow) :
    List GoldStore :=
  let tempKey := key ++ ".tmp"
  let s1 := storePut s tempKey df
  let s2 :=
    match s1 tempKey with
    | some bytes => storePut s1 key bytes
    | none => s1
  let s3 := storeDel s2 tempKey
  [s, s1, s2, s3]

/-- `_write_atomic`: the store after the whole sequence. -/
def writeAtomic (s : GoldStore) (key : String) (df : List SRow) : GoldStore :=
  let tempKey := key ++ ".tmp"
  let s1 := storePut s tempKey df
  let s2 :=
    match s1 tempKey with
    | some bytes => storePut s1 key bytes
    | none => s1
  storeDel s2 tempKey

/-- `existing_df["date"].to_list()` membership: does the frame contain the date? -/
def hasDate (l : List SRow) (d : Nat) : Bool :=
  l.any (fun x => x.date == d)

/-- `merged_df.unique(subset=["date"], keep="last")`: keep, for each date, the
last occurrence (rows whose date does not reappear later). -/
def dedupKeepLast : List SRow → List SRow
  | [] => []
  | r :: rs =>
    if rs.any (fun x => x.date == r.date) then dedupKeepLast rs
    else r :: dedupKeepLast rs

/-- `merged_df.sort("date")`. -/
def sortByDate (l : List SRow) : List SRow :=
  l.insertionSort (fun a b => a.date ≤ b.date)

/-- `_update_stock_data` without the write: `some merged` means the merged
frame is written (atomically), `none` means the method returns without
writing (all dates already present under `force_refresh=false`). -/
def updateStockData (existing? : Option (List SRow)) (newData : List SRow)
    (force : Bool) : Option (List SRow) :=
  match existing? with
  | some existing =>
    if force then
      some (sortByDate (dedupKeepLast (existing ++ newData)))
    else
      if newData.any (fun r => hasDate existing r.date) then
        let nd := newData.filter (fun r => !(hasDate existing r.date))
        if nd.isEmpty then none
        else some (sortByDate (dedupKeepLast (existing ++ nd)))
      else
        some (sortByDate (dedupKeepLast (existing ++ newData)))
  | none => some (sortByDate newData)

/-- `_update_stock_data` acting on the store (read existing file, merge,
atomic write; or return without writing). -/
def applyUpdateStock (s : GoldStore) (code : String) (newData : List SRow)
    (force : Bool) : GoldStore :=
  match updateStockData (s (goldKey code)) newData force with
  | none => s
  | some merged => writeAtomic s (goldKey code) merged

/-! ### Claim C2: atomic-write visibility -/

theorem key_ne_append_tmp (key : String) : key ≠ key ++ ".tmp" := by
  intro h
  have hdata := congrArg String.data h
  rw [String.data_append] at hdata
  have := List.self_eq_append_right.mp hdata
  exact absurd this (by decide)

/-- C2.  During every step of `_write_atomic` on a gold per-stock key, a
reader of `daily_prices/{code}/data.parquet` observes either the complete
prior contents or the complete new contents, never anything else: each
backend operation is a single whole-object update, and the temp key is a
different key. -/
theorem gold_atomic_write_visibility (s : GoldStore) (code : String) (df : List SRow) :
    ∀ st ∈ writeAtomicStates s (goldKey code) df,
      st (goldKey code) = s (goldKey code) ∨ st (goldKey code) = some df := by
  intro st hst
  have hne := key_ne_append_tmp (goldKey code)
  unfold writeAtomicStates at hst
  simp only [List.mem_cons, List.mem_singleton, List.not_mem_nil, or_false] at hst
  have htmp : storePut s (goldKey code ++ ".tmp") df (goldKey code ++ ".tmp") = some df := by
    unfold storePut
    rw [if_pos rfl]
  rcases hst with h0 | h1 | h2 | h3
  · rw [h0]; exact Or.inl rfl
  · rw [h1]
    unfold storePut
    rw [if_neg hne]
    exact Or.inl rfl
  · rw [h2, htmp]
    right
    simp [storePut]
  · rw [h3, htmp]
    right
    simp [storeDel, storePut, hne]

/-- Gold store used for the atomic-write witness. -/
def c2Store : GoldStore := fun _ => none

theorem gold_atomic_write_visibility_witness :
    storePut c2Store (goldKey "1301" ++ ".tmp") [⟨"1301", 20240115, 300⟩] (goldKey "1301") =
        c2Store (goldKey "1301") ∨
      storePut c2Store (goldKey "1301" ++ ".tmp") [⟨"1301", 20240115, 300⟩] (goldKey "1301") =
        some [⟨"1301", 20240115, 300⟩] :=
  gold_atomic_write_visibility c2Store "1301" [⟨"1301", 20240115, 300⟩]
    (storePut c2Store (goldKey "1301" ++ ".tmp") [⟨"1301", 20240115, 300⟩])
    (List.mem_cons_of_mem _ (List.mem_cons_self _ _))

/-! ### `transform_daily_prices` -/

/-- Helper for `Series.unique`: first-occurrence deduplication (polars leaves
the order of `unique` unspecified; any enumeration of the distinct values is
a faithful model). -/
def uniqueGo {α : Type} [DecidableEq α] (seen : List α) : List α → List α
  | [] => []
  | x :: xs => if x ∈ seen then uniqueGo seen xs else x :: uniqueGo (x :: seen) xs

/-- `df[column].unique().to_list()`. -/
def uniqueList {α : Type} [DecidableEq α] (l : List α) : List α :=
  uniqueGo [] l

/-- `SilverStorage.read_daily_prices(start, end)` restricted to what the gold
transform uses: probe the per-date partition keys over the day range, read
and concatenate, filter to the range, sort by `(date, code)`.  The silver
store is abstracted to the partition content per probed date. -/
def readDailyPrices (parts : Nat → Option (List SRow)) (s e : Nat) : List SRow :=
  let frames := (List.range' s (e + 1 - s)).filterMap parts
  let df := frames.flatten
  (df.filter (fun r => decide (s ≤ r.date) && decide (r.date ≤ e))).insertionSort
    (fun a b => a.date < b.date ∨ (a.date = b.date ∧ strLe a.code b.code = true))

/-- The statistics dictionary returned by `transform_daily_prices`. -/
structure TransformStats where
  dates_processed : Nat
  stocks_updated : Nat
  records_written : Nat
  deriving DecidableEq, Repr

/-- The per-stock body of the transform loop, threading the store and the
`stocks_updated` / `records_written` counters.  The counters are incremented
for every stock whose `_update_stock_data` call returns (the `try/except` in
the source only catches exceptions, and the merge itself raises none). -/
def transformStep (silverDf : List SRow) (force : Bool)
    (acc : GoldStore × Nat × Nat) (c : String) : GoldStore × Nat × Nat :=
  let stockData := silverDf.filter (fun r => r.code == c)
  match updateStockData (acc.1 (goldKey c)) stockData force with
  | none => (acc.1, acc.2.1 + 1, acc.2.2 + stockData.length)
  | some merged =>
    (writeAtomic acc.1 (goldKey c) merged, acc.2.1 + 1, acc.2.2 + stockData.length)

/-- `GoldStorage.transform_daily_prices(start_date, end_date, force_refresh)`.
`availableDates` is the (sorted) result of
`silver.list_available_dates("daily_prices")`; `parts` is the silver store
read per date key. -/
def transformDailyPrices (availableDates : List Nat) (parts : Nat → Option (List SRow))
    (startDate? endDate? : Option Nat) (force : Bool) (g : GoldStore) :
    GoldStore × TransformStats :=
  match availableDates with
  | [] => (g, ⟨0, 0, 0⟩)
  | a :: rest =>
    let startDate := startDate?.getD a
    let endDate := endDate?.getD ((a :: rest).getLast (List.cons_ne_nil a rest))
    let datesToProcess := (a :: rest).filter
      (fun d => decide (startDate ≤ d) && decide (d ≤ endDate))
    if datesToProcess.isEmpty then (g, ⟨0, 0, 0⟩)
    else
      let silverDf := readDailyPrices parts startDate endDate
      if silverDf.isEmpty then (g, ⟨0, 0, 0⟩)
      else
        let stockCodes := uniqueList (silverDf.map (fun r => r.code))
        let datesWithData := uniqueList (silverDf.map (fun r => r.date))
        let res := stockCodes.foldl (transformStep silverDf force) (g, 0, 0)
        (res.1, ⟨datesWithData.length, res.2.1, res.2.2⟩)

/-! ### Claim C5: gold file uniqueness (code bug in the fresh-file branch) -/

/-- Bronze reads for the C5 scenario.  The partition ingested for day 15
contains a single fully valid row whose own `Date` field is day 16 — nothing
in `_normalize_daily_quotes_schema` or `_validate_daily_quotes` compares a
row's date to the partition's date (`expected_date` is explicitly unused),
and no duplicate exists within either partition; the partition for day 16
contains a second, different row for day 16. -/
def c5Raw : Nat → List RawQuote := fun d =>
  if d = 15 then
    [⟨some "1301", some 16, some 300, some 300, some 300, some 300, some 0,
      none, none, some 300⟩]
  else if d = 16 then
    [⟨some "1301", some 16, some 315, some 315, some 315, some 315, some 0,
      none, none, some 315⟩]
  else []

/-- Outcome of normalizing day 15 of the C5 scenario into an empty silver
store. -/
def c5Out15 : NormalizeOutcome :=
  normalizeDailyQuotes (fun _ => none) c5Raw 15 false "t"

/-- Outcome of then normalizing day 16. -/
def c5Out16 : NormalizeOutcome :=
  normalizeDailyQuotes c5Out15.store c5Raw 16 false "t"

/-- The two written silver partitions as the gold transform's per-date read
abstraction; the theorem's projection conjuncts tie these rows to the rows
actually stored by `c5Out16`. -/
def c5Parts : Nat → Option (List SRow) := fun d =>
  if d = 15 then some [⟨"1301", 16, 300⟩]
  else if d = 16 then some [⟨"1301", 16, 315⟩]
  else none

/-- C5 failing input, reachable end to end: both silver normalization calls
succeed — each partition passes `_validate_daily_quotes`, which checks no
duplicates and never compares a row's date to the partition's date — and
store exactly the rows abstracted by `c5Parts` (first four conjuncts).
`read_daily_prices` only filters the concatenated rows to the requested
range, so the per-stock slice reaching `_update_stock_data` holds two rows
for day 16; with no existing gold file the fresh branch (`merged_df =
new_data`, no `unique`) writes both, so the written gold file has a
duplicated date (fifth and sixth conjuncts), contradicting the method's own
contract of "ensuring one row per date" and invariant I3.  The last conjunct
shows the merge branch would have deduplicated the same rows. -/
theorem gold_fresh_write_duplicate_dates :
    c5Out15.result = .ok (some (silverKey "daily_prices" 15)) ∧
    c5Out16.result = .ok (some (silverKey "daily_prices" 16)) ∧
    (c5Out16.store (silverKey "daily_prices" 15)).map
        (fun rows => rows.map (fun r => (r.code, r.date, r.close))) =
      some [(some "1301", some 16, some 300)] ∧
    (c5Out16.store (silverKey "daily_prices" 16)).map
        (fun rows => rows.map (fun r => (r.code, r.date, r.close))) =
      some [(some "1301", some 16, some 315)] ∧
    (transformDailyPrices [15, 16] c5Parts (some 15) (some 16) false
        (fun _ => none)).1 (goldKey "1301") =
      some [⟨"1301", 16, 300⟩, ⟨"1301", 16, 315⟩] ∧
    ¬ (([⟨"1301", 16, 300⟩, ⟨"1301", 16, 315⟩] : List SRow).map
        (fun r => r.date)).Nodup ∧
    updateStockData (some [⟨"1301", 16, 300⟩]) [⟨"1301", 16, 315⟩] true =
      some [⟨"1301", 16, 315⟩] := by
  refine ⟨by rfl, by rfl, by rfl, by rfl, by rfl, by decide, by decide⟩

/-! ### Key disjointness -/

theorem goldKey_inj {c c' : String} (h : goldKey c = goldKey c') : c = c' := by
  unfold goldKey at h
  have hdata := congrArg String.data h
  simp only [String.data_append] at hdata
  have h1 := List.append_cancel_right hdata
  have h2 := List.append_cancel_left h1
  exact congrArg String.mk h2

theorem goldKey_data (c : String) :
    (goldKey c).data =
      "daily_prices/".data ++ c.data ++ "/data.parquet".data := by
  unfold goldKey
  simp [String.data_append]

theorem goldKey_tmp_ne_goldKey (c c' : String) : goldKey c ++ ".tmp" ≠ goldKey c' := by
  intro h
  have hdata := congrArg String.data h
  rw [String.data_append, goldKey_data, goldKey_data] at hdata
  have hlast := congrArg List.getLast? hdata
  rw [List.getLast?_append_of_ne_nil _ (by decide)] at hlast
  rw [List.getLast?_append_of_ne_nil _ (by decide)] at hlast
  exact absurd hlast (by decide)

/-! ### Effect of `_write_atomic` on the store -/

/-- The final state of `_write_atomic` is the last of its intermediate
states. -/
theorem writeAtomic_eq_states (s : GoldStore) (key : String) (df : List SRow) :
    writeAtomic s key df = (writeAtomicStates s key df).getLastD s := rfl

theorem writeAtomic_self (s : GoldStore) (key : String) (df : List SRow) :
    writeAtomic s key df key = some df := by
  have htmp : storePut s (key ++ ".tmp") df (key ++ ".tmp") = some df := by
    unfold storePut
    rw [if_pos rfl]
  unfold writeAtomic
  rw [htmp]
  simp [storeDel, storePut, key_ne_append_tmp key]

theorem writeAtomic_other (s : GoldStore) (key : String) (df : List SRow)
    (k : String) (hk : k ≠ key) (htmpk : k ≠ key ++ ".tmp") :
    writeAtomic s key df k = s k := by
  have htmp : storePut s (key ++ ".tmp") df (key ++ ".tmp") = some df := by
    unfold storePut
    rw [if_pos rfl]
  unfold writeAtomic
  rw [htmp]
  simp [storeDel, storePut, hk, htmpk]

/-! ### Unique-list lemmas -/

theorem uniqueGo_mem {α : Type} [DecidableEq α] :
    ∀ (l seen : List α) (a : α), a ∈ uniqueGo seen l ↔ a ∈ l ∧ a ∉ seen := by
  intro l
  induction l with
  | nil => intro seen a; simp [uniqueGo]
  | cons x xs ih =>
    intro seen a
    unfold uniqueGo
    by_cases hx : x ∈ seen
    · rw [if_pos hx, ih]
      constructor
      · rintro ⟨hm, hs⟩
        exact ⟨List.mem_cons_of_mem _ hm, hs⟩
      · rintro ⟨hm, hs⟩
        rcases List.mem_cons.mp hm with rfl | hm'
        · exact absurd hx hs
        · exact ⟨hm', hs⟩
    · rw [if_neg hx]
      rw [List.mem_cons, ih]
      constructor
      · rintro (rfl | ⟨hm, hs⟩)
        · exact ⟨List.mem_cons_self _ _, hx⟩
        · refine ⟨List.mem_cons_of_mem _ hm, fun hc => hs (List.mem_cons_of_mem _ hc)⟩
      · rintro ⟨hm, hs⟩
        rcases List.mem_cons.mp hm with rfl | hm'
        · exact Or.inl rfl
        · by_cases hax : a = x
          · exact Or.inl hax
          · exact Or.inr ⟨hm', fun hc => by
              rcases List.mem_cons.mp hc with h | h
              · exact hax h
              · exact hs h⟩

theorem uniqueGo_nodup {α : Type} [DecidableEq α] :
    ∀ (l seen : List α), (uniqueGo seen l).Nodup := by
  intro l
  induction l with
  | nil => intro seen; simp [uniqueGo]
  | cons x xs ih =>
    intro seen
    unfold uniqueGo
    by_cases hx : x ∈ seen
    · rw [if_pos hx]; exact ih seen
    · rw [if_neg hx]
      rw [List.nodup_cons]
      refine ⟨?_, ih (x :: seen)⟩
      intro hc
      exact ((uniqueGo_mem xs (x :: seen) x).mp hc).2 (List.mem_cons_self _ _)

theorem uniqueList_mem {α : Type} [DecidableEq α] (l : List α) (a : α) :
    a ∈ uniqueList l ↔ a ∈ l := by
  unfold uniqueList
  rw [uniqueGo_mem]
  simp

theorem uniqueList_nodup {α : Type} [DecidableEq α] (l : List α) :
    (uniqueList l).Nodup :=
  uniqueGo_nodup l []

/-! ### Transform loop lemmas -/

theorem fold_store_untouched (silverDf : List SRow) (force : Bool) :
    ∀ (cs : List String) (acc : GoldStore × Nat × Nat) (k : String),
      (∀ c ∈ cs, goldKey c ≠ k ∧ goldKey c ++ ".tmp" ≠ k) →
      (cs.foldl (transformStep silverDf force) acc).1 k = acc.1 k := by
  intro cs
  induction cs with
  | nil => intro acc k _; rfl
  | cons c₀ cs' ih =>
    intro acc k hks
    rw [List.foldl_cons]
    rw [ih _ k (fun c hc => hks c (List.mem_cons_of_mem _ hc))]
    obtain ⟨h1, h2⟩ := hks c₀ (List.mem_cons_self _ _)
    simp only [transformStep]
    cases updateStockData (acc.1 (goldKey c₀))
        (silverDf.filter (fun r => r.code == c₀)) force with
    | none => rfl
    | some m =>
      exact writeAtomic_other acc.1 (goldKey c₀) m k (Ne.symm h1) (Ne.symm h2)

theorem fold_store_at (silverDf : List SRow) (force : Bool) :
    ∀ (cs : List String), cs.Nodup → ∀ (acc : GoldStore × Nat × Nat) (c : String),
      c ∈ cs →
      (cs.foldl (transformStep silverDf force) acc).1 (goldKey c) =
        (match updateStockData (acc.1 (goldKey c))
            (silverDf.filter (fun r => r.code == c)) force with
         | none => acc.1 (goldKey c)
         | some m => some m) := by
  intro cs
  induction cs with
  | nil => intro _ acc c hc; exact absurd hc (List.not_mem_nil _)
  | cons c₀ cs' ih =>
    intro hnd acc c hc
    obtain ⟨hnotin, hnd'⟩ := List.nodup_cons.mp hnd
    rw [List.foldl_cons]
    rcases List.mem_cons.mp hc with rfl | hc'
    · rw [fold_store_untouched silverDf force cs' _ (goldKey c)
        (fun c' hc' => ⟨fun he => hnotin (goldKey_inj he ▸ hc'),
          goldKey_tmp_ne_goldKey c' c⟩)]
      simp only [transformStep]
      cases hupd : updateStockData (acc.1 (goldKey c))
          (silverDf.filter (fun r => r.code == c)) force with
      | none => rfl
      | some m => exact writeAtomic_self acc.1 (goldKey c) m
    · have hcne : c ≠ c₀ := fun he => hnotin (he ▸ hc')
      rw [ih hnd' _ c hc']
      have hstep : (transformStep silverDf force acc c₀).1 (goldKey c) =
          acc.1 (goldKey c) := by
        simp only [transformStep]
        cases updateStockData (acc.1 (goldKey c₀))
            (silverDf.filter (fun r => r.code == c₀)) force with
        | none => rfl
        | some m =>
          exact writeAtomic_other acc.1 (goldKey c₀) m (goldKey c)
            (fun he => hcne (goldKey_inj he)) (fun he => goldKey_tmp_ne_goldKey c₀ c he.symm)
      rw [hstep]

theorem fold_stats (silverDf : List SRow) (force : Bool) :
    ∀ (cs : List String) (acc : GoldStore × Nat × Nat),
      (cs.foldl (transformStep silverDf force) acc).2.1 = acc.2.1 + cs.length ∧
      (cs.foldl (transformStep silverDf force) acc).2.2 = acc.2.2 +
        (cs.map (fun c => (silverDf.filter (fun r => r.code == c)).length)).sum := by
  intro cs
  induction cs with
  | nil => intro acc; simp
  | cons c₀ cs' ih =>
    intro acc
    rw [List.foldl_cons]
    have hstep : (transformStep silverDf force acc c₀).2 =
        (acc.2.1 + 1, acc.2.2 + (silverDf.filter (fun r => r.code == c₀)).length) := by
      simp only [transformStep]
      cases updateStockData (acc.1 (goldKey c₀))
          (silverDf.filter (fun r => r.code == c₀)) force with
      | none => rfl
      | some m => rfl
    obtain ⟨ihu, ihr⟩ := ih (transformStep silverDf force acc c₀)
    constructor
    · rw [ihu, hstep]
      simp [List.length_cons]
      omega
    · rw [ihr, hstep]
      simp [List.map_cons, List.sum_cons]
      omega

theorem sum_filter_lengths :
    ∀ (cs : List String), cs.Nodup → ∀ (l : List SRow), (∀ r ∈ l, r.code ∈ cs) →
      (cs.map (fun c => (l.filter (fun r => r.code == c)).length)).sum = l.length := by
  intro cs
  induction cs with
  | nil =>
    intro _ l hall
    cases l with
    | nil => simp
    | cons r rs => exact absurd (hall r (List.mem_cons_self _ _)) (List.not_mem_nil _)
  | cons c cs' ih =>
    intro hnd l hall
    obtain ⟨hnotin, hnd'⟩ := List.nodup_cons.mp hnd
    rw [List.map_cons, List.sum_cons]
    have hsplit := @List.length_eq_length_filter_add _ l (fun r => r.code == c)
    have hmap : cs'.map (fun c' => (l.filter (fun r => r.code == c')).length) =
        cs'.map (fun c' =>
          ((l.filter (fun r => !(r.code == c))).filter (fun r => r.code == c')).length) := by
      apply List.map_congr_left
      intro c' hc'
      rw [List.filter_filter]
      congr 1
      apply List.filter_congr
      intro r _
      by_cases hrc : r.code = c'
      · have hne : ¬ (r.code == c) = true := by
          simp only [beq_iff_eq]
          intro he
          exact hnotin (he ▸ hrc ▸ hc')
        have hcc : ¬ c' = c := fun he => hnotin (he ▸ hc')
        simp [hrc, hne, hcc]
      · simp [hrc]
    rw [hmap]
    have hih := ih hnd' (l.filter (fun r => !(r.code == c))) (fun r hr => by
      have hmem := List.mem_filter.mp hr
      have hcs := hall r hmem.1
      rcases List.mem_cons.mp hcs with he | hin
      · exfalso
        have := hmem.2
        rw [he] at this
        simp at this
      · exact hin)
    rw [hih]
    omega

/-! ### Claim C10: the transform statistics overcount work performed -/

/-- C10.  For every stock in the silver slice the loop increments
`stocks_updated` and adds the stock's full silver row count to
`records_written`, whether or not `_update_stock_data` wrote anything:
`stocks_updated` equals the number of distinct codes and `records_written`
the total silver row count, for any gold store and any `force_refresh`; and
a stock whose merge returns without writing (all dates already present,
`force_refresh=false`) leaves its gold file untouched while still being
counted. -/
theorem gold_transform_stats_overcount (a : Nat) (rest : List Nat)
    (parts : Nat → Option (List SRow)) (sd ed : Nat) (force : Bool) (g : GoldStore)
    (hproc : ((a :: rest).filter
      (fun d => decide (sd ≤ d) && decide (d ≤ ed))).isEmpty = false)
    (hsilver : (readDailyPrices parts sd ed).isEmpty = false) :
    (transformDailyPrices (a :: rest) parts (some sd) (some ed) force g).2.stocks_updated =
      (uniqueList ((readDailyPrices parts sd ed).map (fun r => r.code))).length ∧
    (transformDailyPrices (a :: rest) parts (some sd) (some ed) force g).2.records_written =
      (readDailyPrices parts sd ed).length ∧
    (∀ c ∈ uniqueList ((readDailyPrices parts sd ed).map (fun r => r.code)),
      updateStockData (g (goldKey c))
          ((readDailyPrices parts sd ed).filter (fun r => r.code == c)) force = none →
      (transformDailyPrices (a :: rest) parts (some sd) (some ed) force g).1 (goldKey c) =
        g (goldKey c)) := by
  have hout : transformDailyPrices (a :: rest) parts (some sd) (some ed) force g =
      ((uniqueList ((readDailyPrices parts sd ed).map (fun r => r.code))).foldl
          (transformStep (readDailyPrices parts sd ed) force) (g, 0, 0) |>.1,
        ⟨(uniqueList ((readDailyPrices parts sd ed).map (fun r => r.date))).length,
          (uniqueList ((readDailyPrices parts sd ed).map (fun r => r.code))).foldl
            (transformStep (readDailyPrices parts sd ed) force) (g, 0, 0) |>.2.1,
          (uniqueList ((readDailyPrices parts sd ed).map (fun r => r.code))).foldl
            (transformStep (readDailyPrices parts sd ed) force) (g, 0, 0) |>.2.2⟩) := by
    simp only [transformDailyPrices, Option.getD_some, hproc, Bool.false_eq_true,
      if_false, hsilver]
  obtain ⟨hu, hr⟩ := fold_stats (readDailyPrices parts sd ed) force
    (uniqueList ((readDailyPrices parts sd ed).map (fun r => r.code))) (g, 0, 0)
  refine ⟨?_, ?_, ?_⟩
  · rw [hout]
    simp only []
    rw [hu]
    simp
  · rw [hout]
    simp only []
    rw [hr]
    rw [sum_filter_lengths _ (uniqueList_nodup _) _ (fun r hr' =>
      (uniqueList_mem _ _).mpr (List.mem_map.mpr ⟨r, hr', rfl⟩))]
    simp
  · intro c hc hnone
    rw [hout]
    simp only []
    rw [fold_store_at (readDailyPrices parts sd ed) force _ (uniqueList_nodup _) _ c hc]
    rw [hnone]

/-- Silver store for the overcount scenario: one partition, one row. -/
def c10Parts : Nat → Option (List SRow) :=
  fun d => if d = 1 then some [⟨"1301", 1, 300⟩] else none

/-- Gold store already holding the same date for that stock. -/
def c10Gold : GoldStore :=
  fun k => if k = goldKey "1301" then some [⟨"1301", 1, 299⟩] else none

theorem gold_transform_stats_overcount_witness :
    (transformDailyPrices [1] c10Parts (some 1) (some 1) false c10Gold).2.stocks_updated
        = 1 ∧
    (transformDailyPrices [1] c10Parts (some 1) (some 1) false c10Gold).2.records_written
        = 1 ∧
    (transformDailyPrices [1] c10Parts (some 1) (some 1) false c10Gold).1 (goldKey "1301")
        = some [⟨"1301", 1, 299⟩] := by
  obtain ⟨h1, h2, h3⟩ := gold_transform_stats_overcount 1 [] c10Parts 1 1 false c10Gold
    (by decide) (by decide)
  refine ⟨?_, ?_, ?_⟩
  · rw [h1]; decide
  · rw [h2]; decide
  · rw [h3 "1301" (by decide) (by decide)]
    decide

/-! ### Dedup-keep-last lemmas -/

/-- The last row of `l` carrying date `d` (polars' `keep="last"` winner). -/
def lastWithDate (l : List SRow) (d : Nat) : Option SRow :=
  l.reverse.find? (fun r => r.date == d)

theorem dedupKeepLast_subset : ∀ {l : List SRow} {x : SRow},
    x ∈ dedupKeepLast l → x ∈ l := by
  intro l
  induction l with
  | nil => intro x hx; exact absurd hx (List.not_mem_nil _)
  | cons r rs ih =>
    intro x hx
    unfold dedupKeepLast at hx
    by_cases hdup : rs.any (fun y => y.date == r.date)
    · rw [if_pos hdup] at hx
      exact List.mem_cons_of_mem _ (ih hx)
    · rw [if_neg hdup] at hx
      rcases List.mem_cons.mp hx with rfl | hx'
      · exact List.mem_cons_self _ _
      · exact List.mem_cons_of_mem _ (ih hx')

theorem dedupKeepLast_last : ∀ {l : List SRow} {x : SRow} {d : Nat},
    x ∈ dedupKeepLast l → x.date = d → lastWithDate l d = some x := by
  intro l
  induction l with
  | nil => intro x d hx; exact absurd hx (List.not_mem_nil _)
  | cons r rs ih =>
    intro x d hx hxd
    unfold dedupKeepLast at hx
    unfold lastWithDate at ih ⊢
    rw [List.reverse_cons, List.find?_append]
    by_cases hdup : rs.any (fun y => y.date == r.date)
    · rw [if_pos hdup] at hx
      rw [ih hx hxd]
      rfl
    · rw [if_neg hdup] at hx
      rcases List.mem_cons.mp hx with rfl | hx'
      · have hnone : rs.reverse.find? (fun y => y.date == x.date) = none := by
          rw [List.find?_eq_none]
          intro y hy hc
          apply hdup
          rw [List.any_eq_true]
          exact ⟨y, List.mem_reverse.mp hy, hc⟩
        rw [hxd] at hnone
        rw [hnone]
        simp [hxd]
      · rw [ih hx' hxd]
        rfl

theorem dedupKeepLast_countP : ∀ (l : List SRow) (d : Nat),
    (dedupKeepLast l).countP (fun x => x.date == d) =
      if l.any (fun x => x.date == d) then 1 else 0 := by
  intro l
  induction l with
  | nil => intro d; simp [dedupKeepLast]
  | cons r rs ih =>
    intro d
    unfold dedupKeepLast
    rw [List.any_cons]
    by_cases hdup : rs.any (fun y => y.date == r.date)
    · rw [if_pos hdup, ih]
      by_cases hrd : r.date = d
      · have hany : rs.any (fun x => x.date == d) = true := by
          rw [List.any_eq_true] at hdup ⊢
          obtain ⟨y, hy, hyd⟩ := hdup
          refine ⟨y, hy, ?_⟩
          rw [beq_iff_eq] at hyd ⊢
          rw [hyd, hrd]
        simp [hany, hrd]
      · have hne : (r.date == d) = false := by simp [hrd]
        rw [hne]
        simp
    · rw [if_neg hdup, List.countP_cons, ih]
      by_cases hrd : r.date = d
      · have hany : rs.any (fun x => x.date == d) = false := by
          rw [Bool.eq_false_iff]
          intro hc
          apply hdup
          rw [List.any_eq_true] at hc ⊢
          obtain ⟨y, hy, hyd⟩ := hc
          refine ⟨y, hy, ?_⟩
          rw [beq_iff_eq] at hyd ⊢
          rw [hyd, hrd]
        simp [hany, hrd]
      · have hne : (r.date == d) = false := by simp [hrd]
        rw [hne]
        simp

theorem lastWithDate_append_right {l₁ l₂ : List SRow} {d : Nat}
    (h : ∃ y ∈ l₂, y.date = d) :
    lastWithDate (l₁ ++ l₂) d = lastWithDate l₂ d := by
  unfold lastWithDate
  rw [List.reverse_append, List.find?_append]
  have hsome : (l₂.reverse.find? (fun r => r.date == d)).isSome = true := by
    rw [List.find?_isSome]
    obtain ⟨y, hy, hyd⟩ := h
    exact ⟨y, List.mem_reverse.mpr hy, by simp [hyd]⟩
  cases hf : l₂.reverse.find? (fun r => r.date == d) with
  | none => rw [hf] at hsome; exact absurd hsome (by simp)
  | some x => rfl

theorem lastWithDate_append_left {l₁ l₂ : List SRow} {d : Nat}
    (h : ∀ y ∈ l₂, y.date ≠ d) :
    lastWithDate (l₁ ++ l₂) d = lastWithDate l₁ d := by
  unfold lastWithDate
  rw [List.reverse_append, List.find?_append]
  have hnone : l₂.reverse.find? (fun r => r.date == d) = none := by
    rw [List.find?_eq_none]
    intro y hy hc
    exact h y (List.mem_reverse.mp hy) (by simpa using hc)
  rw [hnone]
  rfl

theorem lastWithDate_unique {l : List SRow} {r : SRow}
    (huniq : ∀ y ∈ l, y.date = r.date → y = r) (hr : r ∈ l) :
    lastWithDate l r.date = some r := by
  unfold lastWithDate
  have hsome : (l.reverse.find? (fun y => y.date == r.date)).isSome = true := by
    rw [List.find?_isSome]
    exact ⟨r, List.mem_reverse.mpr hr, by simp⟩
  cases hf : l.reverse.find? (fun y => y.date == r.date) with
  | none => rw [hf] at hsome; exact absurd hsome (by simp)
  | some x =>
    have hxm := List.mem_reverse.mp (List.mem_of_find?_eq_some hf)
    have hxd : x.date = r.date := by simpa using List.find?_some hf
    rw [huniq x hxm hxd]

theorem rows_eq_of_nodup_dates {l : List SRow}
    (hnd : (l.map (fun r => r.date)).Nodup) {x y : SRow}
    (hx : x ∈ l) (hy : y ∈ l) (hdate : x.date = y.date) : x = y :=
  List.inj_on_of_nodup_map hnd hx hy hdate

theorem countP_date_map (l : List SRow) (d : Nat) :
    l.countP (fun x => x.date == d) = (l.map (fun r => r.date)).count d := by
  induction l with
  | nil => rfl
  | cons r rs ih =>
    rw [List.countP_cons, List.map_cons, List.count_cons, ih]

theorem countP_date_eq_one {l : List SRow}
    (hnd : (l.map (fun r => r.date)).Nodup) {r : SRow} (hr : r ∈ l) :
    l.countP (fun x => x.date == r.date) = 1 := by
  rw [countP_date_map]
  exact List.count_eq_one_of_mem hnd (List.mem_map.mpr ⟨r, hr, rfl⟩)

/-- A merged-and-sorted frame holds exactly the `keep="last"` winner at each
date: membership and uniqueness of the winner row. -/
theorem merged_at_date (ex nd : List SRow) (r : SRow)
    (hlast : lastWithDate (ex ++ nd) r.date = some r) :
    r ∈ sortByDate (dedupKeepLast (ex ++ nd)) ∧
      ∀ x ∈ sortByDate (dedupKeepLast (ex ++ nd)), x.date = r.date → x = r := by
  have hperm := List.perm_insertionSort
    (fun a b : SRow => a.date ≤ b.date) (dedupKeepLast (ex ++ nd))
  have huniq : ∀ x ∈ sortByDate (dedupKeepLast (ex ++ nd)), x.date = r.date → x = r := by
    intro x hx hxd
    have hx' : x ∈ dedupKeepLast (ex ++ nd) := hperm.mem_iff.mp hx
    have := dedupKeepLast_last hx' hxd
    rw [hlast] at this
    exact (Option.some.inj this).symm
  refine ⟨?_, huniq⟩
  have hany : (ex ++ nd).any (fun x => x.date == r.date) = true := by
    rw [List.any_eq_true]
    have : r ∈ ex ++ nd := by
      have := List.mem_of_find?_eq_some hlast
      exact List.mem_reverse.mp this
    exact ⟨r, this, by simp⟩
  have hcount : (dedupKeepLast (ex ++ nd)).countP (fun x => x.date == r.date) = 1 := by
    rw [dedupKeepLast_countP, if_pos hany]
  have hpos : 0 < (sortByDate (dedupKeepLast (ex ++ nd))).countP
      (fun x => x.date == r.date) := by
    unfold sortByDate
    rw [hperm.countP_eq]
    omega
  obtain ⟨x, hx, hxd⟩ := List.countP_pos_iff.mp hpos
  have := huniq x hx (by simpa using hxd)
  rw [← this]
  exact hx

/-! ### Branch equations of `_update_stock_data` -/

theorem updateStockData_fresh (slice : List SRow) (force : Bool) :
    updateStockData none slice force = some (sortByDate slice) := rfl

theorem updateStockData_force (ex slice : List SRow) :
    updateStockData (some ex) slice true =
      some (sortByDate (dedupKeepLast (ex ++ slice))) := rfl

theorem updateStockData_noskip (ex slice : List SRow)
    (h : slice.any (fun r => hasDate ex r.date) = false) :
    updateStockData (some ex) slice false =
      some (sortByDate (dedupKeepLast (ex ++ slice))) := by
  simp only [updateStockData, Bool.false_eq_true, if_false, h]

theorem updateStockData_skip (ex slice : List SRow)
    (hany : slice.any (fun r => hasDate ex r.date) = true)
    (hempty : (slice.filter (fun r => !(hasDate ex r.date))).isEmpty = true) :
    updateStockData (some ex) slice false = none := by
  simp only [updateStockData, Bool.false_eq_true, if_false, hany, if_true, hempty]

theorem updateStockData_merge (ex slice : List SRow)
    (hany : slice.any (fun r => hasDate ex r.date) = true)
    (hempty : (slice.filter (fun r => !(hasDate ex r.date))).isEmpty = false) :
    updateStockData (some ex) slice false =
      some (sortByDate (dedupKeepLast
        (ex ++ slice.filter (fun r => !(hasDate ex r.date))))) := by
  simp only [updateStockData, Bool.false_eq_true, if_false, hany, if_true, hempty]

theorem merged_countP (ex nd : List SRow) (d : Nat) :
    (sortByDate (dedupKeepLast (ex ++ nd))).countP (fun x => x.date == d) =
      if (ex ++ nd).any (fun x => x.date == d) then 1 else 0 := by
  unfold sortByDate
  rw [(List.perm_insertionSort _ _).countP_eq, dedupKeepLast_countP]

theorem sorted_slice_mem_uniq {slice : List SRow}
    (hslnd : (slice.map (fun r => r.date)).Nodup) {r : SRow} (hr : r ∈ slice) :
    r ∈ sortByDate slice ∧ ∀ x ∈ sortByDate slice, x.date = r.date → x = r := by
  have hperm := List.perm_insertionSort (fun a b : SRow => a.date ≤ b.date) slice
  exact ⟨hperm.mem_iff.mpr hr,
    fun x hx hxd => rows_eq_of_nodup_dates hslnd (hperm.mem_iff.mp hx) hr hxd⟩

/-- Full specification of one `_update_stock_data` call, assuming the silver
slice has pairwise-distinct dates and the pre-existing gold file (if any)
has pairwise-distinct dates.  The resulting file (the merged frame if
written, the untouched existing file if the call skips) holds exactly one
row per silver date; under `force_refresh` the silver row is that row; and
without `force_refresh` existing rows are preserved and only new dates'
rows are added, the call skipping entirely when no new dates remain. -/
theorem updateStockData_spec (ex? : Option (List SRow)) (slice : List SRow) (force : Bool)
    (hslnd : (slice.map (fun r => r.date)).Nodup)
    (hexnd : ∀ ex, ex? = some ex → (ex.map (fun r => r.date)).Nodup) :
    (∃ f,
      (match updateStockData ex? slice force with
       | none => ex?
       | some m => some m) = some f ∧
      (∀ r ∈ slice, f.countP (fun x => x.date == r.date) = 1) ∧
      (force = true → ∀ r ∈ slice, r ∈ f ∧ ∀ x ∈ f, x.date = r.date → x = r) ∧
      (force = false → ∀ ex, ex? = some ex →
        (∀ rx ∈ ex, (∃ rr ∈ slice, rr.date = rx.date) →
          rx ∈ f ∧ ∀ x ∈ f, x.date = rx.date → x = rx) ∧
        (∀ r ∈ slice, hasDate ex r.date = false →
          r ∈ f ∧ ∀ x ∈ f, x.date = r.date → x = r))) ∧
    (∀ ex, ex? = some ex → slice ≠ [] →
      (∀ r ∈ slice, hasDate ex r.date = true) →
      updateStockData ex? slice false = none) := by
  constructor
  · cases ex? with
    | none =>
      refine ⟨sortByDate slice, by rw [updateStockData_fresh], ?_, ?_, ?_⟩
      · intro r hr
        unfold sortByDate
        rw [(List.perm_insertionSort _ _).countP_eq]
        exact countP_date_eq_one hslnd hr
      · intro _ r hr
        exact sorted_slice_mem_uniq hslnd hr
      · intro _ ex hex
        exact absurd hex (by simp)
    | some ex =>
      have hexnd' := hexnd ex rfl
      cases force with
      | true =>
        refine ⟨sortByDate (dedupKeepLast (ex ++ slice)),
          by rw [updateStockData_force], ?_, ?_, ?_⟩
        · intro r hr
          rw [merged_countP, if_pos]
          rw [List.any_eq_true]
          exact ⟨r, List.mem_append_right _ hr, by simp⟩
        · intro _ r hr
          apply merged_at_date
          rw [lastWithDate_append_right ⟨r, hr, rfl⟩]
          exact lastWithDate_unique
            (fun y hy hyd => rows_eq_of_nodup_dates hslnd hy hr hyd) hr
        · intro hcontra
          exact absurd hcontra (by simp)
      | false =>
        by_cases hskip : slice.any (fun r => hasDate ex r.date) = true
        · by_cases hempty : (slice.filter (fun r => !(hasDate ex r.date))).isEmpty = true
          · have hall : ∀ r' ∈ slice, hasDate ex r'.date = true := by
              intro r' hr'
              have hnil : slice.filter (fun r => !(hasDate ex r.date)) = [] :=
                List.isEmpty_iff.mp hempty
              have := List.filter_eq_nil_iff.mp hnil r' hr'
              simpa using this
            refine ⟨ex, by rw [updateStockData_skip ex slice hskip hempty], ?_, ?_, ?_⟩
            · intro r hr
              have hmem : r.date ∈ ex.map (fun y => y.date) := by
                have := hall r hr
                unfold hasDate at this
                rw [List.any_eq_true] at this
                obtain ⟨y, hy, hyd⟩ := this
                exact List.mem_map.mpr ⟨y, hy, by simpa using hyd⟩
              rw [countP_date_map]
              exact List.count_eq_one_of_mem hexnd' hmem
            · intro hcontra
              exact absurd hcontra (by simp)
            · intro _ ex' hex'
              have hexeq : ex = ex' := Option.some.inj hex'
              subst hexeq
              constructor
              · intro rx hrx _
                exact ⟨hrx, fun x hx hxd => rows_eq_of_nodup_dates hexnd' hx hrx hxd⟩
              · intro r hr hfalse
                rw [hall r hr] at hfalse
                exact absurd hfalse (by simp)
          · have hempty' : (slice.filter (fun r => !(hasDate ex r.date))).isEmpty = false :=
              Bool.not_eq_true _ ▸ Bool.eq_false_iff.mpr hempty
            refine ⟨sortByDate (dedupKeepLast
                (ex ++ slice.filter (fun r => !(hasDate ex r.date)))),
              by rw [updateStockData_merge ex slice hskip hempty'], ?_, ?_, ?_⟩
            · intro r hr
              rw [merged_countP, if_pos]
              rw [List.any_eq_true]
              cases hhd : hasDate ex r.date with
              | true =>
                unfold hasDate at hhd
                rw [List.any_eq_true] at hhd
                obtain ⟨y, hy, hyd⟩ := hhd
                exact ⟨y, List.mem_append_left _ hy, hyd⟩
              | false =>
                refine ⟨r, List.mem_append_right _ ?_, by simp⟩
                exact List.mem_filter.mpr ⟨hr, by simp [hhd]⟩
            · intro hcontra
              exact absurd hcontra (by simp)
            · intro _ ex' hex'
              have hexeq : ex = ex' := Option.some.inj hex'
              subst hexeq
              constructor
              · intro rx hrx _
                apply merged_at_date
                rw [lastWithDate_append_left ?hnone]
                case hnone =>
                  intro y hy hyd
                  have hyf := List.mem_filter.mp hy
                  have : hasDate ex rx.date = true := by
                    unfold hasDate
                    rw [List.any_eq_true]
                    exact ⟨rx, hrx, by simp⟩
                  rw [← hyd] at this
                  rw [this] at hyf
                  simp at hyf
                exact lastWithDate_unique
                  (fun y hy hyd => rows_eq_of_nodup_dates hexnd' hy hrx hyd) hrx
              · intro r hr hfalse
                have hrnd : r ∈ slice.filter (fun x => !(hasDate ex x.date)) :=
                  List.mem_filter.mpr ⟨hr, by simp [hfalse]⟩
                apply merged_at_date
                rw [lastWithDate_append_right ⟨r, hrnd, rfl⟩]
                exact lastWithDate_unique
                  (fun y hy hyd => rows_eq_of_nodup_dates hslnd
                    (List.mem_filter.mp hy).1 hr hyd) hrnd
        · have hskip' : slice.any (fun r => hasDate ex r.date) = false :=
            Bool.eq_false_iff.mpr hskip
          refine ⟨sortByDate (dedupKeepLast (ex ++ slice)),
            by rw [updateStockData_noskip ex slice hskip'], ?_, ?_, ?_⟩
          · intro r hr
            rw [merged_countP, if_pos]
            rw [List.any_eq_true]
            exact ⟨r, List.mem_append_right _ hr, by simp⟩
          · intro hcontra
            exact absurd hcontra (by simp)
          · intro _ ex' hex'
            have hexeq : ex = ex' := Option.some.inj hex'
            subst hexeq
            constructor
            · intro rx hrx hexist
              exfalso
              obtain ⟨rr, hrr, hrrd⟩ := hexist
              have : slice.any (fun r => hasDate ex r.date) = true := by
                rw [List.any_eq_true]
                refine ⟨rr, hrr, ?_⟩
                unfold hasDate
                rw [List.any_eq_true]
                exact ⟨rx, hrx, by simp [hrrd]⟩
              rw [this] at hskip'
              exact Bool.noConfusion hskip'
            · intro r hr _
              apply merged_at_date
              rw [lastWithDate_append_right ⟨r, hr, rfl⟩]
              exact lastWithDate_unique
                (fun y hy hyd => rows_eq_of_nodup_dates hslnd hy hr hyd) hr
  · intro ex hex hne hall
    rw [hex]
    apply updateStockData_skip
    · rw [List.any_eq_true]
      cases slice with
      | nil => exact absurd rfl hne
      | cons r rs => exact ⟨r, List.mem_cons_self _ _, hall r (List.mem_cons_self _ _)⟩
    · rw [List.isEmpty_iff]
      rw [List.filter_eq_nil_iff]
      intro r hr
      rw [hall r hr]
      simp

theorem slice_dates_nodup {silverDf : List SRow}
    (hnd : (silverDf.map (fun r => (r.code, r.date))).Nodup) (c : String) :
    ((silverDf.filter (fun r => r.code == c)).map (fun r => r.date)).Nodup := by
  have hsub : ((silverDf.filter (fun r => r.code == c)).map
      (fun r => (r.code, r.date))).Sublist (silverDf.map (fun r => (r.code, r.date))) :=
    List.Sublist.map _ (List.filter_sublist _)
  have hpairs := List.Nodup.sublist hsub hnd
  apply List.Nodup.map_on
  · intro x hx y hy hd
    have hxc : x.code = c := by simpa using (List.mem_filter.mp hx).2
    have hyc : y.code = c := by simpa using (List.mem_filter.mp hy).2
    refine List.inj_on_of_nodup_map hpairs hx hy ?_
    rw [Prod.ext_iff]
    exact ⟨by rw [hxc, hyc], hd⟩
  · exact List.Nodup.of_map _ hpairs

theorem slice_ne_nil {silverDf : List SRow} {c : String}
    (hc : c ∈ uniqueList (silverDf.map (fun r => r.code))) :
    silverDf.filter (fun r => r.code == c) ≠ [] := by
  rw [uniqueList_mem] at hc
  obtain ⟨r, hr, hrc⟩ := List.mem_map.mp hc
  intro hnil
  have hmem : r ∈ silverDf.filter (fun x => x.code == c) :=
    List.mem_filter.mpr ⟨hr, by simp [hrc]⟩
  rw [hnil] at hmem
  exact List.not_mem_nil _ hmem

/-- C1 amended.  Gold merge correctness of `transform_daily_prices` over a
date range, provided the silver data has at most one row per `(code, date)`
and every pre-existing gold file has pairwise-distinct dates (the invariant
the merge maintains): for every `(code, date)` present in silver, the
resulting gold file of that code holds exactly one row with that date; with
`force_refresh=true` the silver row replaces any existing row (dedup keeps
the last occurrence after concatenating existing then new rows); with
`force_refresh=false` the existing row for an already-present date is
preserved and only rows for new dates are appended, the write being skipped
entirely (`_update_stock_data` returns `none` and the store is untouched)
when no new dates remain. -/
theorem gold_merge_correctness (a : Nat) (rest : List Nat)
    (parts : Nat → Option (List SRow)) (sd ed : Nat) (force : Bool) (g : GoldStore)
    (hproc : ((a :: rest).filter
      (fun d => decide (sd ≤ d) && decide (d ≤ ed))).isEmpty = false)
    (hnd : ((readDailyPrices parts sd ed).map (fun r => (r.code, r.date))).Nodup)
    (hgold : ∀ k fl, g k = some fl → (fl.map (fun r => r.date)).Nodup) :
    ∀ c ∈ uniqueList ((readDailyPrices parts sd ed).map (fun r => r.code)),
      ∃ f,
        (transformDailyPrices (a :: rest) parts (some sd) (some ed) force g).1
            (goldKey c) = some f ∧
        (∀ r ∈ (readDailyPrices parts sd ed).filter (fun r => r.code == c),
          f.countP (fun x => x.date == r.date) = 1) ∧
        (force = true →
          ∀ r ∈ (readDailyPrices parts sd ed).filter (fun r => r.code == c),
            r ∈ f ∧ ∀ x ∈ f, x.date = r.date → x = r) ∧
        (force = false → ∀ ex, g (goldKey c) = some ex →
          (∀ rx ∈ ex,
            (∃ rr ∈ (readDailyPrices parts sd ed).filter (fun r => r.code == c),
              rr.date = rx.date) →
            rx ∈ f ∧ ∀ x ∈ f, x.date = rx.date → x = rx) ∧
          (∀ r ∈ (readDailyPrices parts sd ed).filter (fun r => r.code == c),
            hasDate ex r.date = false →
            r ∈ f ∧ ∀ x ∈ f, x.date = r.date → x = r) ∧
          ((∀ r ∈ (readDailyPrices parts sd ed).filter (fun r => r.code == c),
              hasDate ex r.date = true) →
            updateStockData (g (goldKey c))
              ((readDailyPrices parts sd ed).filter (fun r => r.code == c)) false
              = none ∧
            f = ex)) := by
  intro c hc
  have hsilver : (readDailyPrices parts sd ed).isEmpty = false := by
    cases hsd : readDailyPrices parts sd ed with
    | nil =>
      rw [hsd] at hc
      simp [uniqueList, uniqueGo] at hc
    | cons r rs => rfl
  have hout : (transformDailyPrices (a :: rest) parts (some sd) (some ed) force g).1 =
      ((uniqueList ((readDailyPrices parts sd ed).map (fun r => r.code))).foldl
        (transformStep (readDailyPrices parts sd ed) force) (g, 0, 0)).1 := by
    simp only [transformDailyPrices, Option.getD_some, hproc, Bool.false_eq_true,
      if_false, hsilver]
  have hat := fold_store_at (readDailyPrices parts sd ed) force _
    (uniqueList_nodup _) (g, 0, 0) c hc
  obtain ⟨⟨f, hmatch, hcount, hforce, hnoforce⟩, hskipthm⟩ :=
    updateStockData_spec (g (goldKey c))
      ((readDailyPrices parts sd ed).filter (fun r => r.code == c)) force
      (slice_dates_nodup hnd c) (fun ex hex => hgold _ ex hex)
  refine ⟨f, ?_, hcount, hforce, ?_⟩
  · rw [hout, hat, hmatch]
  · intro hf ex hex
    obtain ⟨hexisting, hnew⟩ := hnoforce hf ex hex
    refine ⟨hexisting, hnew, ?_⟩
    intro hall
    have hnone := hskipthm ex hex (slice_ne_nil hc) hall
    refine ⟨hnone, ?_⟩
    subst hf
    rw [hnone, hex] at hmatch
    exact (Option.some.inj hmatch).symm

/-- C1 counterexample: silver data carrying two rows for the same
`(code, date)` (possible because nothing upstream deduplicates bronze rows)
merged into a fresh gold file yields two rows for that date — not "exactly
one row" as the claim states — because the no-existing-file branch skips the
dedup. -/
theorem gold_merge_counterexample :
    (transformDailyPrices [1]
        (fun d => if d = 1 then some [⟨"1301", 1, 300⟩, ⟨"1301", 1, 315⟩] else none)
        (some 1) (some 1) false (fun _ => none)).1 (goldKey "1301") =
      some [⟨"1301", 1, 300⟩, ⟨"1301", 1, 315⟩] ∧
    ([⟨"1301", 1, 300⟩, ⟨"1301", 1, 315⟩] : List SRow).countP
        (fun x => x.date == 1) = 2 := by
  constructor
  · rfl
  · decide

/-- Silver partitions of the specification's gold-merge scenario. -/
def c1Parts : Nat → Option (List SRow) := fun d =>
  if d = 15 then some [⟨"1301", 15, 315⟩]
  else if d = 16 then some [⟨"1301", 16, 115⟩]
  else none

/-- Existing gold file of the scenario: one row `(date 15, close 300)`. -/
def c1Gold : GoldStore :=
  fun k => if k = goldKey "1301" then some [⟨"1301", 15, 300⟩] else none

theorem gold_merge_correctness_witness :
    ∃ f, (transformDailyPrices [15, 16] c1Parts (some 15) (some 16) true c1Gold).1
        (goldKey "1301") = some f ∧
      (⟨"1301", 15, 315⟩ : SRow) ∈ f ∧
      ∀ x ∈ f, x.date = 15 → x = ⟨"1301", 15, 315⟩ := by
  obtain ⟨f, hf, hcount, hforce, hnof⟩ :=
    gold_merge_correctness 15 [16] c1Parts 15 16 true c1Gold (by decide) (by decide)
      (fun k fl h => by
        unfold c1Gold at h
        by_cases hk : k = goldKey "1301"
        · rw [if_pos hk] at h
          rw [← Option.some.inj h]
          decide
        · rw [if_neg hk] at h
          exact Option.noConfusion h)
      "1301" (by decide)
  have hmem : (⟨"1301", 15, 315⟩ : SRow) ∈
      (readDailyPrices c1Parts 15 16).filter (fun r => r.code == "1301") := by decide
  obtain ⟨h1, h2⟩ := hforce rfl _ hmem
  exact ⟨f, hf, h1, h2⟩

/-! ## Stock code resolution (`fin/stock.py`, `Stock._resolve_code`) -/

/-- Python `str.isdigit()` (restricted to the decimal digits the codes use):
non-empty and all digits. -/
def pyIsDigit (s : String) : Bool :=
  !s.data.isEmpty && s.data.all (fun c => c.isDigit)

/-- Python `str.strip()`. -/
def pyStrip (s : String) : String :=
  ⟨((s.data.dropWhile (fun c => c.isWhitespace)).reverse.dropWhile
      (fun c => c.isWhitespace)).reverse⟩

/-- Python `s.endswith(suf)`. -/
def pyEndsWith (s suf : String) : Bool :=
  suf.data.isSuffixOf s.data

/-- Python `sorted(set(xs))` for strings. -/
def sortedUnique (xs : List String) : List String :=
  (uniqueList xs).insertionSort (fun a b => strLe a b = true)

/-- `Stock._resolve_code(code, bronze, gold)`.  The latest listed-info
snapshot is abstracted to its `Code` column (`listedCodes`; an empty list
models both an empty snapshot and a failed load), and
`gold.list_available_stocks()` to `goldStocks`. -/
def resolveCode (code : String) (listedCodes goldStocks : List String) :
    Except String String :=
  let cleaned := pyStrip code
  if !(pyIsDigit cleaned) then
    .error "Stock code must be numeric"
  else if cleaned.data.length = 5 then
    .ok cleaned
  else if cleaned.data.length ≠ 4 then
    .error "Stock code must be 4 or 5 digits"
  else if cleaned ∈ listedCodes then
    .ok cleaned
  else
    let fromListed := listedCodes.filter (fun c => pyStartsWith c cleaned)
    let candidates :=
      if fromListed.isEmpty then goldStocks.filter (fun c => pyStartsWith c cleaned)
      else fromListed
    if candidates.isEmpty then
      .ok (cleaned ++ "0")
    else
      match (sortedUnique candidates).find? (fun c => pyEndsWith c "0") with
      | some c => .ok c
      | none => .ok ((sortedUnique candidates).headD "")

/-! ### Order lemmas for the candidate sort -/

theorem charListLe_refl : ∀ l : List Char, charListLe l l = true := by
  intro l
  induction l with
  | nil => rfl
  | cons a as ih =>
    unfold charListLe
    rw [if_neg (lt_irrefl a), if_neg (lt_irrefl a)]
    exact ih

theorem charListLe_total : ∀ a b : List Char,
    charListLe a b = true ∨ charListLe b a = true := by
  intro a
  induction a with
  | nil => intro b; left; rfl
  | cons x xs ih =>
    intro b
    cases b with
    | nil => right; rfl
    | cons y ys =>
      unfold charListLe
      rcases lt_trichotomy x y with h | h | h
      · left
        rw [if_pos h]
      · subst h
        rw [if_neg (lt_irrefl x), if_neg (lt_irrefl x), if_neg (lt_irrefl x),
          if_neg (lt_irrefl x)]
        exact ih ys
      · right
        rw [if_pos h]

theorem charListLe_trans : ∀ a b c : List Char,
    charListLe a b = true → charListLe b c = true → charListLe a c = true := by
  intro a
  induction a with
  | nil => intro b c _ _; rfl
  | cons x xs ih =>
    intro b c hab hbc
    cases b with
    | nil => exact absurd hab (by simp [charListLe])
    | cons y ys =>
      cases c with
      | nil => exact absurd hbc (by simp [charListLe])
      | cons z zs =>
        unfold charListLe at hab hbc ⊢
        rcases lt_trichotomy x y with hxy | hxy | hxy
        · rcases lt_trichotomy y z with hyz | hyz | hyz
          · rw [if_pos (lt_trans hxy hyz)]
          · subst hyz
            rw [if_pos hxy]
          · rw [if_neg (not_lt.mpr (le_of_lt hyz)), if_pos hyz] at hbc
            exact absurd hbc (by simp)
        · subst hxy
          have hab' : charListLe xs ys = true := by
            rwa [if_neg (lt_irrefl x), if_neg (lt_irrefl x)] at hab
          rcases lt_trichotomy x z with hxz | hxz | hxz
          · rw [if_pos hxz]
          · subst hxz
            have hbc' : charListLe ys zs = true := by
              rwa [if_neg (lt_irrefl x), if_neg (lt_irrefl x)] at hbc
            rw [if_neg (lt_irrefl x), if_neg (lt_irrefl x)]
            exact ih ys zs hab' hbc'
          · rw [if_neg (not_lt.mpr (le_of_lt hxz)), if_pos hxz] at hbc
            exact absurd hbc (by simp)
        · rw [if_neg (not_lt.mpr (le_of_lt hxy)), if_pos hxy] at hab
          exact absurd hab (by simp)

theorem strLe_refl (a : String) : strLe a a = true := charListLe_refl a.data

theorem strLe_total (a b : String) : strLe a b = true ∨ strLe b a = true :=
  charListLe_total a.data b.data

theorem strLe_trans {a b c : String} (h1 : strLe a b = true) (h2 : strLe b c = true) :
    strLe a c = true :=
  charListLe_trans a.data b.data c.data h1 h2

theorem sortedUnique_mem (xs : List String) (a : String) :
    a ∈ sortedUnique xs ↔ a ∈ xs := by
  unfold sortedUnique
  rw [(List.perm_insertionSort _ _).mem_iff]
  exact uniqueList_mem xs a

theorem sortedUnique_ne_nil {xs : List String} (h : xs ≠ []) :
    sortedUnique xs ≠ [] := by
  intro hc
  cases xs with
  | nil => exact h rfl
  | cons x xs' =>
    have : x ∈ sortedUnique (x :: xs') :=
      (sortedUnique_mem _ _).mpr (List.mem_cons_self _ _)
    rw [hc] at this
    exact List.not_mem_nil _ this

theorem sortedUnique_head_min (xs : List String) :
    ∀ a ∈ sortedUnique xs, strLe ((sortedUnique xs).headD "") a = true := by
  haveI htot : IsTotal String (fun a b => strLe a b = true) := ⟨strLe_total⟩
  haveI htrans : IsTrans String (fun a b => strLe a b = true) :=
    ⟨fun _ _ _ => strLe_trans⟩
  have hsorted : List.Sorted (fun a b => strLe a b = true) (sortedUnique xs) :=
    List.sorted_insertionSort _ _
  intro a ha
  cases hs : sortedUnique xs with
  | nil => rw [hs] at ha; exact absurd ha (List.not_mem_nil _)
  | cons h t =>
    rw [hs] at ha hsorted
    simp only [List.headD_cons]
    rcases List.mem_cons.mp ha with rfl | ha'
    · exact strLe_refl a
    · exact (List.sorted_cons.mp hsorted).1 a ha'

/-- Behaviour of `_resolve_code` on a cleaned 4-digit numeric input not listed
verbatim, once the candidate pool (listed-info prefix matches, falling back to
gold prefix matches) is non-empty: the result is a candidate, it ends in `"0"`
whenever some candidate does, and otherwise it is the lexicographic minimum. -/
theorem resolveCode_candidates (code : String) (listedCodes goldStocks : List String)
    (cands : List String)
    (hd : pyIsDigit (pyStrip code) = true)
    (h4 : (pyStrip code).data.length = 4)
    (hmem : pyStrip code ∉ listedCodes)
    (hc : cands = (if (listedCodes.filter (fun c => pyStartsWith c (pyStrip code))).isEmpty
        then goldStocks.filter (fun c => pyStartsWith c (pyStrip code))
        else listedCodes.filter (fun c => pyStartsWith c (pyStrip code))))
    (hne : cands ≠ []) :
    ∃ r, resolveCode code listedCodes goldStocks = Except.ok r ∧ r ∈ cands ∧
      ((∃ c ∈ cands, pyEndsWith c "0" = true) → pyEndsWith r "0" = true) ∧
      ((∀ c ∈ cands, pyEndsWith c "0" = false) → ∀ c ∈ cands, strLe r c = true) := by
  have h5 : ¬((pyStrip code).data.length = 5) := by rw [h4]; decide
  have hcne : cands.isEmpty = false := by
    cases cands with
    | nil => exact absurd rfl hne
    | cons x xs => rfl
  simp only [resolveCode, hd, Bool.not_true, Bool.false_eq_true, if_false]
  rw [if_neg h5, if_neg (not_not_intro h4), if_neg hmem, ← hc]
  simp only [hcne, Bool.false_eq_true, if_false]
  cases hf : (sortedUnique cands).find? (fun c => pyEndsWith c "0") with
  | some c =>
    have hpc : pyEndsWith c "0" = true := by
      have h0 := List.find?_some hf
      exact h0
    refine ⟨c, rfl, (sortedUnique_mem _ _).mp (List.mem_of_find?_eq_some hf),
      fun _ => hpc, fun hall => ?_⟩
    have : pyEndsWith c "0" = false :=
      hall c ((sortedUnique_mem _ _).mp (List.mem_of_find?_eq_some hf))
    rw [hpc] at this
    exact absurd this (by decide)
  | none =>
    have hsune : sortedUnique cands ≠ [] := sortedUnique_ne_nil hne
    refine ⟨(sortedUnique cands).headD "", rfl, ?_, fun he => ?_, fun _ c hcm => ?_⟩
    · cases hs : sortedUnique cands with
      | nil => exact absurd hs hsune
      | cons h t =>
        refine (sortedUnique_mem _ _).mp ?_
        rw [hs]
        simp only [List.headD_cons]
        exact List.mem_cons_self _ _
    · obtain ⟨c, hcm, hc0⟩ := he
      exact absurd hc0 (List.find?_eq_none.mp hf c ((sortedUnique_mem _ _).mpr hcm))
    · exact sortedUnique_head_min cands c ((sortedUnique_mem _ _).mpr hcm)

/-! ### Claim C6: code resolution -/

/-- C6 counterexample.  The snapshot `["13011", "130100"]` contains exactly one
5-digit extension of `"1301"` (namely `"13011"`) and not `"1301"` itself, yet
`_resolve_code` returns the 6-digit `"130100"`: all prefix matches are kept as
candidates regardless of length, they are sorted (`"130100" < "13011"`), and
the first candidate ending in `"0"` wins. -/
theorem stock_resolve_code_counterexample :
    resolveCode "1301" ["13011", "130100"] [] = Except.ok "130100" ∧
    ["13011", "130100"].filter
      (fun c => pyStartsWith c "1301" && c.data.length == 5) = ["13011"] ∧
    "1301" ∉ ["13011", "130100"] ∧
    "130100" ≠ "13011" := by
  refine ⟨by rfl, by decide, by decide, by decide⟩

/-- C6 (amended).  Code resolution by `Stock._resolve_code` over a cleaned
(stripped) input: (i) a non-numeric input errors; (ii) a 5-digit numeric input
is returned as-is; (iii) a numeric input whose length is neither 4 nor 5
errors; (iv) if the input is 4-digit numeric, not listed verbatim, and the
snapshot contains exactly one prefix match (of any length), that match is
returned; (v) if neither the snapshot nor gold yields a prefix match, the
input with `"0"` appended is returned; (vi) with a non-empty candidate pool
the result is a candidate, ends in `"0"` if any candidate does, and otherwise
is the lexicographic minimum.  (The original claim's clause that a unique
5-digit extension is always returned fails when longer prefix matches
coexist.) -/
theorem stock_resolve_code (code : String) (listedCodes goldStocks : List String) :
    (pyIsDigit (pyStrip code) = false →
      ∃ e, resolveCode code listedCodes goldStocks = Except.error e) ∧
    (pyIsDigit (pyStrip code) = true → (pyStrip code).data.length = 5 →
      resolveCode code listedCodes goldStocks = Except.ok (pyStrip code)) ∧
    (pyIsDigit (pyStrip code) = true → (pyStrip code).data.length ≠ 5 →
      (pyStrip code).data.length ≠ 4 →
      ∃ e, resolveCode code listedCodes goldStocks = Except.error e) ∧
    (∀ e, pyIsDigit (pyStrip code) = true → (pyStrip code).data.length = 4 →
      pyStrip code ∉ listedCodes →
      listedCodes.filter (fun c => pyStartsWith c (pyStrip code)) = [e] →
      resolveCode code listedCodes goldStocks = Except.ok e) ∧
    (pyIsDigit (pyStrip code) = true → (pyStrip code).data.length = 4 →
      pyStrip code ∉ listedCodes →
      listedCodes.filter (fun c => pyStartsWith c (pyStrip code)) = [] →
      goldStocks.filter (fun c => pyStartsWith c (pyStrip code)) = [] →
      resolveCode code listedCodes goldStocks = Except.ok (pyStrip code ++ "0")) ∧
    (∀ cands, pyIsDigit (pyStrip code) = true → (pyStrip code).data.length = 4 →
      pyStrip code ∉ listedCodes →
      cands = (if (listedCodes.filter (fun c => pyStartsWith c (pyStrip code))).isEmpty
          then goldStocks.filter (fun c => pyStartsWith c (pyStrip code))
          else listedCodes.filter (fun c => pyStartsWith c (pyStrip code))) →
      cands ≠ [] →
      ∃ r, resolveCode code listedCodes goldStocks = Except.ok r ∧ r ∈ cands ∧
        ((∃ c ∈ cands, pyEndsWith c "0" = true) → pyEndsWith r "0" = true) ∧
        ((∀ c ∈ cands, pyEndsWith c "0" = false) → ∀ c ∈ cands, strLe r c = true)) := by
  refine ⟨fun h => ?_, fun hd h5 => ?_, fun hd h5 h4 => ?_, fun e hd h4 hmem hfl => ?_,
    fun hd h4 hmem hfl hgf => ?_,
    fun cands hd h4 hmem hc hne => resolveCode_candidates _ _ _ _ hd h4 hmem hc hne⟩
  · simp only [resolveCode, h, Bool.not_false, if_true]
    exact ⟨_, rfl⟩
  · simp only [resolveCode, hd, Bool.not_true, Bool.false_eq_true, if_false]
    rw [if_pos h5]
  · simp only [resolveCode, hd, Bool.not_true, Bool.false_eq_true, if_false]
    rw [if_neg h5, if_pos h4]
    exact ⟨_, rfl⟩
  · obtain ⟨r, hr, hrm, _, _⟩ :=
      resolveCode_candidates code listedCodes goldStocks [e] hd h4 hmem
        (by rw [hfl]; rfl) (List.cons_ne_nil e [])
    rw [hr, List.mem_singleton.mp hrm]
  · have h5 : ¬((pyStrip code).data.length = 5) := by rw [h4]; decide
    simp only [resolveCode, hd, Bool.not_true, Bool.false_eq_true, if_false]
    rw [if_neg h5, if_neg (not_not_intro h4), if_neg hmem, hfl, hgf]
    rfl

/-- Concrete run of the amended C6 theorem: the spec scenarios.  `"1301"`
with the sole snapshot match `"13010"` resolves to `"13010"`; `"0000"` with no
evidence resolves to `"00000"`; `"abc"` errors; `"13010"` is returned as-is;
the 3-digit numeric `"123"` errors. -/
theorem stock_resolve_code_witness :
    resolveCode "1301" ["13010"] [] = Except.ok "13010" ∧
    resolveCode "0000" [] [] = Except.ok "00000" ∧
    (∃ e, resolveCode "abc" [] [] = Except.error e) ∧
    resolveCode "13010" [] [] = Except.ok "13010" ∧
    (∃ e, resolveCode "123" [] [] = Except.error e) := by
  refine ⟨?_, ?_, ?_, ?_, ?_⟩
  · exact (stock_resolve_code "1301" ["13010"] []).2.2.2.1 "13010"
      (by decide) (by decide) (by decide) (by decide)
  · exact (stock_resolve_code "0000" [] []).2.2.2.2.1
      (by decide) (by decide) (by decide) (by decide) (by decide)
  · exact (stock_resolve_code "abc" [] []).1 (by decide)
  · exact (stock_resolve_code "13010" [] []).2.1 (by decide) (by decide)
  · exact (stock_resolve_code "123" [] []).2.2.1 (by decide) (by decide) (by decide)

end Janalysis
